import Mathlib

/-!
# Verification of the batch-oriented normalization engine

Shallow embedding of the cache-resumable text-normalization engine of
`import-info-refiner` (the `standardize_data` / `process_batch` pair in
`src/helpers/standardizer.py`, together with the HTTP retry layer in
`src/helpers/ai/gemma_handler.py` and the local pre-cleaner
`local_clean_name`).

Modelling conventions:
* Python strings are Lean `String`s (ASCII fragment for the character
  classes `\w` and `\s` and for `str.upper`).
* Python dicts (cache mappings, JSON objects) are insertion-ordered
  association lists; `dictInsert` mirrors Python's "update in place,
  append new keys at the end" semantics.
* The filesystem is a map from path strings to file contents.  A cache
  file holds either a well-formed JSON object of strings (`FileData.good`)
  or unparsable bytes (`FileData.corrupt`); `json.load` of a corrupt file
  raises, which the source catches and turns into an empty mapping.
* The remote service (`gemma.process_prompt`) is an oracle: a function
  from the request payload (the list of names sent) and the attempt
  number to the returned value.  A returned Python string together with
  the outcome of `json.loads` on it is modelled by
  `PromptResult.strResp`; a raised exception by `PromptResult.exn`.
* The thread pool of `standardize_data` is sequentialized: each worker
  touches only its own batch file, and the in-memory merge order is
  modelled as batch-index order.
-/

namespace ImportInfoRefiner

/-! ## Python-style dictionaries (insertion ordered association lists) -/

/-- A Python `dict[str, str]`, kept in insertion order. -/
abbrev Dict := List (String × String)

/-- `k in d` for a Python dict. -/
def dictMem (d : Dict) (k : String) : Bool :=
  d.any (fun p => p.1 == k)

/-- `d.get(k)` / `d[k]` for a Python dict (`none` when the key is absent). -/
def dictLookup (d : Dict) (k : String) : Option String :=
  (d.find? (fun p => p.1 == k)).map (fun p => p.2)

/-- `d[k] = v`: overwrite in place if the key exists, append otherwise. -/
def dictInsert (d : Dict) (k v : String) : Dict :=
  if dictMem d k then d.map (fun p => if p.1 == k then (k, v) else p)
  else d ++ [(k, v)]

/-- `d.update(e)`: insert every pair of `e` into `d`, in order. -/
def dictUpdate (d e : Dict) : Dict :=
  e.foldl (fun acc p => dictInsert acc p.1 p.2) d

/-! ## JSON values -/

/-- JSON values, as produced by `json.loads`. -/
inductive JVal where
  | jnull : JVal
  | jbool : Bool → JVal
  | jnum : Int → JVal
  | jstr : String → JVal
  | jarr : List JVal → JVal
  | jobj : List (String × JVal) → JVal

/-- Key lookup in a JSON object (`fields[k]` / `"k" in fields`). -/
def jLookup (fields : List (String × JVal)) (k : String) : Option JVal :=
  (fields.find? (fun p => p.1 == k)).map (fun p => p.2)

/-- Python `dict.get(k)`: `None` (= JSON null) when absent. -/
def jGet (fields : List (String × JVal)) (k : String) : JVal :=
  (jLookup fields k).getD JVal.jnull

/-- Python truthiness of a JSON value (`if response:`). -/
def jTruthy : JVal → Bool
  | JVal.jnull => false
  | JVal.jbool b => b
  | JVal.jnum n => n != 0
  | JVal.jstr s => s != ""
  | JVal.jarr l => !l.isEmpty
  | JVal.jobj f => !f.isEmpty

/-! ## Python string helpers -/

/-- The characters matched by Python's `\s` (ASCII fragment). -/
def isSpaceChar (c : Char) : Bool :=
  c == ' ' || c == '\t' || c == '\n' || c == '\r' || c == '\x0b' || c == '\x0c'

/-- `l` with leading and trailing whitespace removed (`str.strip()` on
character lists). -/
def stripChars (l : List Char) : List Char :=
  ((l.dropWhile isSpaceChar).reverse.dropWhile isSpaceChar).reverse

/-- `str.strip()`. -/
def pyStrip (s : String) : String :=
  String.mk (stripChars s.data)

/-! ## Filesystem model -/

/-- Contents of a cache file: a parsable JSON object of strings, or bytes
that make `json.load` raise. -/
inductive FileData where
  | good : Dict → FileData
  | corrupt : FileData
  deriving DecidableEq

/-- A filesystem: path → contents (`none` = the file does not exist). -/
def Fs := String → Option FileData

/-- The empty filesystem. -/
def emptyFs : Fs := fun _ => none

/-- Writing (the whole of) a file. -/
def writeFs (fs : Fs) (p : String) (d : FileData) : Fs :=
  fun q => if q == p then some d else fs q

/-- `os.path.join(a, b)` (POSIX flavour, as used by the source). -/
def pyJoin (a b : String) : String :=
  if b.data.head? = some '/' then b
  else if a = "" ∨ a.data.getLast? = some '/' then a ++ b
  else a ++ "/" ++ b

/-- The file name `f"temp_{column}_cleaned_batch_{batch_index}.json"`. -/
def tempFileName (column : String) (i : Nat) : String :=
  "temp_" ++ column ++ "_cleaned_batch_" ++ Nat.repr i ++ ".json"

/-- The path `process_batch` loads and persists:
`os.path.join(TEMP_DIR, raw_manifest_filename, folder, f"temp_{column}_cleaned_batch_{i}.json")`
(standardizer.py lines 66-71). -/
def batchTempFile (tempDir manifest folderName column : String) (i : Nat) : String :=
  pyJoin (pyJoin (pyJoin tempDir manifest) folderName) (tempFileName column i)

/-- The path step 6 of `standardize_data` re-reads:
`os.path.join(TEMP_DIR, folder, f"temp_{column}_cleaned_batch_{i}.json")`
(standardizer.py lines 315 and 433-435).  Note the missing manifest
component compared with `batchTempFile`. -/
def mergeTempFile (tempDir folderName column : String) (i : Nat) : String :=
  pyJoin (pyJoin tempDir folderName) (tempFileName column i)

/-- Step 1 of `process_batch` (lines 73-106): load the existing mapping if
present; a file that `json.load` cannot parse is logged and treated as
empty ("Starting fresh"). -/
def loadCacheFile (fs : Fs) (p : String) : Dict :=
  match fs p with
  | some (FileData.good m) => m
  | some FileData.corrupt => []
  | none => []

/-! ## The remote oracle -/

/-- One outcome of `gemma.process_prompt` as seen by `process_batch`:
either the call raised, or it returned a Python string (paired with the
result of `json.loads` on it), or it returned some other value. -/
inductive PromptResult where
  | exn : PromptResult
  | strResp : Option JVal → PromptResult
  | val : JVal → PromptResult

/-- The JSON value a `PromptResult` eventually contributes to the
`response` variable, if any. -/
def respVal : PromptResult → Option JVal
  | PromptResult.exn => none
  | PromptResult.strResp p => p
  | PromptResult.val v => some v

/-! ## Response validation (standardizer.py lines 174-189) -/

/-- The per-item check of lines 182-189: the item is a dict carrying
both `"raw_input"` and `"output"`. -/
def validItem : JVal → Bool
  | JVal.jobj f => (jLookup f "raw_input").isSome && (jLookup f "output").isSome
  | _ => false

/-- The structural validation of a response: a dict with key
`"standardized_data"` holding a list of exactly `n` items, every item a
dict carrying both `"raw_input"` and `"output"`. -/
def validateResponse (n : Nat) (v : JVal) : Bool :=
  match v with
  | JVal.jobj fields =>
    match jLookup fields "standardized_data" with
    | some (JVal.jarr items) =>
      decide (items.length = n) && items.all validItem
    | _ => false
  | _ => false

/-- The acceptance condition as the specification states it: the
response carries exactly `n` output items and every item is a structure
with both the echo field and the output field. -/
def specAccepts (n : Nat) (v : JVal) : Prop :=
  ∃ fields items, v = JVal.jobj fields ∧
    jLookup fields "standardized_data" = some (JVal.jarr items) ∧
    items.length = n ∧
    ∀ it ∈ items, ∃ f, it = JVal.jobj f ∧
      (jLookup f "raw_input").isSome = true ∧ (jLookup f "output").isSome = true

/-- A response links back to the request: every item's echoed
`"raw_input"`, after stripping, is one of the requested values.  The
source never checks this; it is the hypothesis under which cache
entries are stable. -/
def echoesRequest (req : List String) (r : PromptResult) : Prop :=
  ∀ v, respVal r = some v →
    ∀ fields items, v = JVal.jobj fields →
      jLookup fields "standardized_data" = some (JVal.jarr items) →
      ∀ it ∈ items, ∀ f, it = JVal.jobj f →
        ∀ s, jGet f "raw_input" = JVal.jstr s → pyStrip s ∈ req

/-- A structurally valid response echoes the request exactly: item `k`
carries the `k`-th requested value (after stripping) as its echo field
and a string output. -/
def echoesExactly (req : List String) (r : PromptResult) : Prop :=
  ∀ v, respVal r = some v → validateResponse req.length v = true →
    ∀ fields items, v = JVal.jobj fields →
      jLookup fields "standardized_data" = some (JVal.jarr items) →
      ∀ k (hk : k < items.length) (hk2 : k < req.length),
        ∃ f s out, items.get ⟨k, hk⟩ = JVal.jobj f ∧
          jGet f "raw_input" = JVal.jstr s ∧ pyStrip s = req.get ⟨k, hk2⟩ ∧
          jGet f "output" = JVal.jstr out

/-! ## The retry loop of `process_batch` (lines 127-222) -/

/-- State returned by the `while attempts < 3 and not valid_response`
loop: the final value of the `response` variable, the `valid_response`
flag, the sleeps performed (seconds), and the number of
`gemma.process_prompt` calls made. -/
structure LoopResult where
  response : Option JVal
  valid : Bool
  sleeps : List Nat
  attempts : Nat

/-- The retry loop `while attempts < 3 and not valid_response`, run with
`remaining = 3 - attempts` as structural fuel.  `attempts` counts calls
already made; the oracle is indexed by the (1-based) attempt number.  On
an exception: log, sleep 5, retry.  On a string that fails `json.loads`:
set `response = None`, retry immediately.  On a structurally invalid
value: keep it in `response`, sleep 2, retry. -/
def attemptLoop (oracle : Nat → PromptResult) (n : Nat) :
    Nat → Nat → Option JVal → List Nat → LoopResult
  | 0, attempts, resp, sleeps => ⟨resp, false, sleeps, attempts⟩
  | remaining + 1, attempts, resp, sleeps =>
    match oracle (attempts + 1) with
    | PromptResult.exn => attemptLoop oracle n remaining (attempts + 1) resp (sleeps ++ [5])
    | PromptResult.strResp none => attemptLoop oracle n remaining (attempts + 1) none sleeps
    | PromptResult.strResp (some v) =>
      if validateResponse n v then ⟨some v, true, sleeps, attempts + 1⟩
      else attemptLoop oracle n remaining (attempts + 1) (some v) (sleeps ++ [2])
    | PromptResult.val v =>
      if validateResponse n v then ⟨some v, true, sleeps, attempts + 1⟩
      else attemptLoop oracle n remaining (attempts + 1) (some v) (sleeps ++ [2])

/-! ## Building the final mapping (lines 224-258) -/

/-- The loop `for item in response["standardized_data"]` (lines 228-240):
`raw = item.get("raw_input")`, `cleaned = item.get("output")`; when both
are non-null, `final_mapping[raw.strip()] = cleaned.strip()` — which
raises `AttributeError` (`none` here) if either is a non-null non-string;
a null on either side is only logged. -/
def buildMapping : List JVal → Dict → Option Dict
  | [], acc => some acc
  | it :: rest, acc =>
    match it with
    | JVal.jobj f =>
      match jGet f "raw_input", jGet f "output" with
      | JVal.jnull, _ => buildMapping rest acc
      | _, JVal.jnull => buildMapping rest acc
      | JVal.jstr r, JVal.jstr c => buildMapping rest (dictInsert acc (pyStrip r) (pyStrip c))
      | _, _ => none
    | _ => none

/-- The identity fallback `final_mapping[raw.strip()] = raw.strip()`
(lines 243-245). -/
def identDict (toProcess : List String) : Dict :=
  toProcess.foldl (fun acc raw => dictInsert acc (pyStrip raw) (pyStrip raw)) []

/-- What `process_batch` did after loading the cache: returned the cache
unchanged (`early`, line 119), raised (`raised`), or computed a mapping
that is both persisted and returned (`done`). -/
inductive CoreOutcome where
  | early : Dict → CoreOutcome
  | raised : CoreOutcome
  | done : Dict → CoreOutcome
  deriving DecidableEq

/-- Result of the pure part of `process_batch`. -/
structure CoreResult where
  outcome : CoreOutcome
  sleeps : List Nat
  attempts : Nat
  deriving DecidableEq

/-- Step 2 (line 111): the names of the batch that are not yet keys of
the loaded mapping. -/
def pendingOf (batchValues : List String) (loaded : Dict) : List String :=
  batchValues.filter (fun name => !dictMem loaded name)

/-- The pure part of `process_batch` (everything between loading and
persisting the cache file), as a function of the loaded mapping.
Mirrors standardizer.py lines 110-258. -/
def processBatchCore (oracle : List String → Nat → PromptResult)
    (batchValues : List String) (cityFlag : Bool) (loaded : Dict) : CoreResult :=
  let toProcess := pendingOf batchValues loaded
  if toProcess.isEmpty then ⟨CoreOutcome.early loaded, [], 0⟩
  else
    let L := attemptLoop (oracle toProcess) toProcess.length 3 0 none []
    let useResponse := L.valid &&
      (match L.response with
       | some v => jTruthy v &&
         (match v with
          | JVal.jobj f => (jLookup f "standardized_data").isSome
          | _ => false)
       | none => false)
    if useResponse then
      match L.response with
      | some (JVal.jobj f) =>
        match jLookup f "standardized_data" with
        | some (JVal.jarr items) =>
          match buildMapping items [] with
          | some fm => ⟨CoreOutcome.done (dictUpdate loaded fm), L.sleeps, L.attempts⟩
          | none => ⟨CoreOutcome.raised, L.sleeps, L.attempts⟩
        | _ => ⟨CoreOutcome.raised, L.sleeps, L.attempts⟩
      | _ => ⟨CoreOutcome.raised, L.sleeps, L.attempts⟩
    else
      ⟨CoreOutcome.done (dictUpdate loaded (if cityFlag then [] else identDict toProcess)),
        L.sleeps, L.attempts⟩

/-- Observable result of one `process_batch` call: the filesystem after
the call, the value returned to the executor (`none` when the worker
raised), the sleeps performed and the number of remote calls made. -/
structure BatchResult where
  fs : Fs
  result : Option Dict
  sleeps : List Nat
  attempts : Nat

/-- `process_batch(batch_values, column, batch_index, raw_manifest_filename,
STANDARDIZER_PROMPT, FOLDER_NAME, city_flag)` (standardizer.py lines
42-284), over the filesystem `fs` and remote oracle `oracle`. -/
def processBatch (oracle : List String → Nat → PromptResult)
    (batchValues : List String) (tempDir manifest folderName column : String)
    (batchIndex : Nat) (cityFlag : Bool) (fs : Fs) : BatchResult :=
  let tempFile := batchTempFile tempDir manifest folderName column batchIndex
  let loaded := loadCacheFile fs tempFile
  let core := processBatchCore oracle batchValues cityFlag loaded
  match core.outcome with
  | CoreOutcome.early m => ⟨fs, some m, core.sleeps, core.attempts⟩
  | CoreOutcome.raised => ⟨fs, none, core.sleeps, core.attempts⟩
  | CoreOutcome.done m => ⟨writeFs fs tempFile (FileData.good m), some m, core.sleeps, core.attempts⟩

/-! ## The HTTP retry layer (`gemma_handler.py`)

`GemmaHandler._ask_gemma` has its own retry loop around the HTTP POST.
One HTTP attempt is modelled by an `HttpOutcome`; the extraction of the
JSON payload out of the markdown-fenced completion text is abstracted
into the `Option JVal` carried by a 200-with-choices outcome. -/

/-- One outcome of `requests.post` as consumed by `_ask_gemma`. -/
inductive HttpOutcome where
  | reqExn : HttpOutcome
  | okJson : Option JVal → HttpOutcome
  | okNoChoices : HttpOutcome
  | httpStatus : Nat → HttpOutcome

/-- Result of `_ask_gemma`: the returned response dict, the sleeps
performed and the number of HTTP requests issued. -/
structure AskResult where
  response : JVal
  sleeps : List Nat
  calls : Nat

/-- The error dict returned after exhausting retries (lines 166-173). -/
def connectionErrorDict : JVal :=
  JVal.jobj [("status", JVal.jstr "error"), ("status_code", JVal.jnum 500),
    ("error", JVal.jstr "API_CONNECTION_ERROR"), ("message", JVal.jstr "")]

/-- The retry loop of `_ask_gemma(prompt, retries=3, delay=5)`
(gemma_handler.py lines 90-173), run with `remaining = retries - attempt`
as structural fuel.  `attempt` is 0-based as in `range(retries)`; the
oracle gives the outcome of each HTTP request. -/
def askGemmaLoop (h : Nat → HttpOutcome) (retries delay : Nat) :
    Nat → Nat → List Nat → Nat → AskResult
  | 0, _attempt, sleeps, calls => ⟨connectionErrorDict, sleeps, calls⟩
  | remaining + 1, attempt, sleeps, calls =>
    match h attempt with
    | HttpOutcome.okJson (some v) =>
      ⟨JVal.jobj [("status", JVal.jstr "success"), ("status_code", JVal.jnum 200),
        ("data", v)], sleeps, calls + 1⟩
    | HttpOutcome.okJson none =>
      ⟨JVal.jobj [("status", JVal.jstr "error"), ("status_code", JVal.jnum 400),
        ("error", JVal.jstr "JSON_PARSE_ERROR"), ("message", JVal.jstr ""),
        ("raw_response", JVal.jstr "")], sleeps, calls + 1⟩
    | HttpOutcome.okNoChoices =>
      ⟨JVal.jobj [("status", JVal.jstr "error"), ("status_code", JVal.jnum 500),
        ("error", JVal.jstr "RESPONSE_ERROR"), ("message", JVal.jstr ""),
        ("raw_response", JVal.jstr "")], sleeps, calls + 1⟩
    | HttpOutcome.httpStatus code =>
      if 500 ≤ code ∧ code < 600 then
        askGemmaLoop h retries delay remaining (attempt + 1) (sleeps ++ [delay]) (calls + 1)
      else
        ⟨JVal.jobj [("status", JVal.jstr "error"), ("status_code", JVal.jnum code),
          ("error", JVal.jstr "API_CLIENT_ERROR"), ("message", JVal.jstr "")],
          sleeps, calls + 1⟩
    | HttpOutcome.reqExn =>
      if attempt + 1 < retries then
        askGemmaLoop h retries delay remaining (attempt + 1) (sleeps ++ [delay]) (calls + 1)
      else ⟨connectionErrorDict, sleeps, calls + 1⟩

/-- `_ask_gemma(prompt)` with the default `retries=3, delay=5`. -/
def askGemma (h : Nat → HttpOutcome) : AskResult :=
  askGemmaLoop h 3 5 3 0 [] 0

/-- `process_prompt` (gemma_handler.py lines 175-222): on a success dict
return it unchanged, otherwise wrap into an API_ERROR dict.  Template
processing is assumed to succeed (the template file is part of the
deployment). -/
def processPrompt (h : Nat → HttpOutcome) : JVal :=
  let r := (askGemma h).response
  match r with
  | JVal.jobj fields =>
    if (match jLookup fields "status" with
        | some (JVal.jstr s) => s == "success"
        | _ => false) then r
    else JVal.jobj [("status", JVal.jstr "error"), ("error", JVal.jstr "API_ERROR"),
      ("message", JVal.jstr "")]
  | _ => JVal.jobj [("status", JVal.jstr "error"), ("error", JVal.jstr "API_ERROR"),
      ("message", JVal.jstr "")]

/-- The oracle `process_batch` sees when composed with the real
`GemmaHandler`: attempt `a` of the outer loop triggers one full
`process_prompt` call, whose HTTP attempts are given by `h a`.
`process_prompt` never raises (it catches everything) and never returns
a string, so the result is always `PromptResult.val`. -/
def composedOracle (h : Nat → Nat → HttpOutcome) :
    List String → Nat → PromptResult :=
  fun _req a => PromptResult.val (processPrompt (h a))

/-- Total number of HTTP requests a `process_batch` call issued when its
outer attempts are `pb.attempts` and the HTTP outcomes are given by `h`
(the outer loop consults the oracle exactly once per attempt). -/
def totalHttpCalls (h : Nat → Nat → HttpOutcome) (outerAttempts : Nat) : Nat :=
  ((List.range outerAttempts).map (fun k => (askGemma (h (k + 1))).calls)).sum

/-! ## Interruption model for the cache write (lines 260-281)

`process_batch` persists with `open(temp_file, "w")` followed by
`json.dump`: opening with mode `"w"` first truncates the file, then the
serialized mapping is streamed.  A run interrupted between the truncate
and the completed write leaves bytes that are a proper prefix of a JSON
object, which `json.load` cannot parse. -/

/-- The filesystem states an interrupted save can leave behind: the
truncated/partially-written state, then the completed write. -/
def saveWriteStates (fs : Fs) (p : String) (m : Dict) : List Fs :=
  [writeFs fs p FileData.corrupt, writeFs fs p (FileData.good m)]

/-! ## The local pre-cleaner `local_clean_name` (standardizer.py lines 20-40)

The configured token tables `UNWANTED_TOKENS` and `ABBREVIATIONS` are
imported from `src/config/abbreviations.py`, which is not part of the
sources; they are passed here as explicit parameters (a stop list and an
insertion-ordered string dictionary, matching their Python types). -/

/-- The characters matched by Python's `\w` (ASCII fragment). -/
def isWordChar (c : Char) : Bool :=
  ('A' ≤ c && c ≤ 'Z') || ('a' ≤ c && c ≤ 'z') || ('0' ≤ c && c ≤ '9') || c == '_'

/-- `str.upper()` on one character (ASCII fragment). -/
def upperChar (c : Char) : Char :=
  if 'a' ≤ c && c ≤ 'z' then Char.ofNat (c.toNat - 32) else c

/-- `re.sub(r"\s+", " ", l)` as a one-pass state machine: `inRun` is
true while inside a whitespace run, whose first character was emitted as
one space. -/
def collapseGo : Bool → List Char → List Char
  | _, [] => []
  | inRun, c :: rest =>
    if isSpaceChar c then
      if inRun then collapseGo true rest else ' ' :: collapseGo true rest
    else c :: collapseGo false rest

/-- `re.sub(r"\s+", " ", l)`: each maximal whitespace run becomes one
space. -/
def collapseSpaces (l : List Char) : List Char :=
  collapseGo false l

/-- `str.split()`: split on whitespace runs, dropping empty pieces.  A
non-space character either starts a new word (when followed by a space
or the end) or extends the word that begins right after it. -/
def splitWords : List Char → List (List Char)
  | [] => []
  | c :: rest =>
    if isSpaceChar c then splitWords rest
    else
      match splitWords rest, rest.head? with
      | w :: ws, some d => if isSpaceChar d then [c] :: w :: ws else (c :: w) :: ws
      | _, _ => [[c]]

/-- `" ".join(words)` on character lists. -/
def joinWords : List (List Char) → List Char
  | [] => []
  | [w] => w
  | w :: ws => w ++ ' ' :: joinWords ws

/-- `local_clean_name(name)`: uppercase and strip, punctuation to
spaces, collapse whitespace, tokenize, drop `unwanted` tokens, expand
via `abbrevs`, rejoin.  `none` models a missing value (`pd.isna`). -/
def localCleanName (abbrevs : List (String × String)) (unwanted : List String) :
    Option String → String
  | none => ""
  | some s =>
    let c1 := stripChars s.data
    let c2 := c1.map upperChar
    let c3 := c2.map (fun c => if isWordChar c || isSpaceChar c then c else ' ')
    let c4 := stripChars (collapseSpaces c3)
    let tokens := (splitWords c4).map (fun w => String.mk w)
    let tokens2 := tokens.filter (fun t => !unwanted.contains t)
    let tokens3 := tokens2.map (fun t => (dictLookup abbrevs t).getD t)
    String.mk (joinWords (tokens3.map (fun t => t.data)))

/-! ## Well-formedness of the configured token tables

Modelled from the spec: `src/config/abbreviations.py`, which defines the
configured `ABBREVIATIONS` dictionary and `UNWANTED_TOKENS` stop list, is
not part of the sources.  The spec describes the pre-cleaner as applying,
in order, case folding, punctuation-to-space substitution, whitespace
collapse, tokenization, stop-list removal and per-token abbreviation
expansion, and calls the result idempotent; that holds exactly when the
configured expansions are already in cleaned form, which the predicates
below express. -/

/-- A token already in cleaned form, which the token stages leave alone:
non-empty, made of word characters fixed by upper-casing, not a stop
token and not an abbreviation key. -/
def wordOK (abbrevs : List (String × String)) (unwanted : List String)
    (w : List Char) : Prop :=
  w ≠ [] ∧ (∀ c ∈ w, isWordChar c = true ∧ upperChar c = c) ∧
    unwanted.contains (String.mk w) = false ∧
    dictLookup abbrevs (String.mk w) = none

/-- Modelled from the spec: an abbreviation expansion already in cleaned
form (it is exactly the space-join of its tokens, and every token is
`wordOK`). -/
def goodExpansion (abbrevs : List (String × String)) (unwanted : List String)
    (v : String) : Prop :=
  splitWords v.data ≠ [] ∧ v.data = joinWords (splitWords v.data) ∧
    ∀ w ∈ splitWords v.data, wordOK abbrevs unwanted w

/-- Modelled from the spec: every configured expansion is in cleaned form. -/
def goodAbbrevs (abbrevs : List (String × String)) (unwanted : List String) : Prop :=
  ∀ p ∈ abbrevs, goodExpansion abbrevs unwanted p.2

instance (abbrevs : List (String × String)) (unwanted : List String) (w : List Char) :
    Decidable (wordOK abbrevs unwanted w) := by
  unfold wordOK; infer_instance

instance (abbrevs : List (String × String)) (unwanted : List String) (v : String) :
    Decidable (goodExpansion abbrevs unwanted v) := by
  unfold goodExpansion; infer_instance

instance (abbrevs : List (String × String)) (unwanted : List String) :
    Decidable (goodAbbrevs abbrevs unwanted) := by
  unfold goodAbbrevs; infer_instance

/-! ## The per-column body of `standardize_data` (standardizer.py lines 286-520) -/

/-- `Series.unique()` with a seen-set accumulator. -/
def uniqueGo : List String → List String → List String
  | [], _ => []
  | x :: rest, seen =>
    if seen.contains x then uniqueGo rest seen
    else x :: uniqueGo rest (x :: seen)

/-- `Series.unique()`: distinct values in first-seen order. -/
def listUnique (l : List String) : List String :=
  uniqueGo l []

/-- Python `range(0, n, step)` (for `step > 0`). -/
def rangeStep (n step : Nat) : List Nat :=
  (List.range ((n + step - 1) / step)).map (fun k => k * step)

/-- Step 3 (lines 354-358): the comprehension
`[unique_values[i : i + DATA_CHUNK_SIZE] for i in range(0, num_unique, DATA_CHUNK_SIZE)]`. -/
def chunksOf (size : Nat) (l : List String) : List (List String) :=
  (rangeStep l.length size).map (fun i => (l.drop i).take size)

/-- The in-memory merge of one completed batch (lines 399-421): a raised
worker or a falsy mapping is only logged; otherwise every pair with
truthy key and value is stripped and inserted. -/
def mergeBatchResult (fm : Dict) (r : Option Dict) : Dict :=
  match r with
  | none => fm
  | some bm =>
    if bm.isEmpty then fm
    else bm.foldl
      (fun acc p => if p.1 ≠ "" ∧ p.2 ≠ "" then dictInsert acc (pyStrip p.1) (pyStrip p.2) else acc)
      fm

/-- Step 5 (lines 384-430): dispatch the batches (sequentialized in
batch-index order; each worker touches only its own cache file) and
merge the in-memory results. -/
def runBatches (oracle : List String → Nat → PromptResult)
    (tempDir manifest folderName column : String) (cityFlag : Bool) :
    List (List String) → Nat → Fs → Dict → Fs × Dict
  | [], _, fs, fm => (fs, fm)
  | b :: rest, i, fs, fm =>
    let r := processBatch oracle b tempDir manifest folderName column i cityFlag fs
    runBatches oracle tempDir manifest folderName column cityFlag rest (i + 1) r.fs
      (mergeBatchResult fm r.result)

/-- Step 6 (lines 432-448): re-read every batch's JSON from
`base_temp_folder = os.path.join(TEMP_DIR, folder)` and merge it;
unreadable or missing files are skipped. -/
def mergeCacheFiles (fs : Fs) (tempDir folderName column : String) (total : Nat)
    (fm : Dict) : Dict :=
  (List.range total).foldl
    (fun acc i =>
      match fs (mergeTempFile tempDir folderName column i) with
      | some (FileData.good m) => dictUpdate acc m
      | some FileData.corrupt => acc
      | none => acc)
    fm

/-- Line 465: `final_mapping = {k.strip(): v for k, v in final_mapping.items()}`. -/
def stripKeys (fm : Dict) : Dict :=
  fm.foldl (fun acc p => dictInsert acc (pyStrip p.1) p.2) []

/-- Result of processing one column: the filesystem after the run, the
output column (`none` when the column was skipped because no non-empty
values were found; a cell is `none` when it is NaN), and the final
mapping. -/
structure ColumnResult where
  fs : Fs
  output : Option (List (Option String))
  mapping : Dict

/-- The body of `standardize_data`'s per-column loop (lines 318-512),
for one column of raw values (`none` cells model NaN). -/
def standardizeColumn (oracle : List String → Nat → PromptResult)
    (abbrevs : List (String × String)) (unwanted : List String)
    (tempDir manifest folderName column : String) (chunkSize : Nat) (cityFlag : Bool)
    (rows : List (Option String)) (fs : Fs) : ColumnResult :=
  let pre := rows.map (localCleanName abbrevs unwanted)
  let uniqueValues := (listUnique pre).filter (fun u => u ≠ "")
  if uniqueValues.isEmpty then ⟨fs, none, []⟩
  else
    let batchLists := chunksOf chunkSize uniqueValues
    let totalBatches := batchLists.length
    let rb := runBatches oracle tempDir manifest folderName column cityFlag batchLists 0 fs []
    let fm := mergeCacheFiles rb.1 tempDir folderName column totalBatches rb.2
    let fm2 := stripKeys fm
    let preStripped := pre.map pyStrip
    let mapped := preStripped.map (fun p => dictLookup fm2 p)
    let outputCol := (mapped.zip preStripped).map
      (fun q => match q.1 with
        | some v => some v
        | none => some q.2)
    ⟨rb.1, some outputCol, fm2⟩

/-! # Theorems -/

/-! ## Shared helper lemmas -/

theorem validItem_iff (it : JVal) :
    validItem it = true ↔
      ∃ f, it = JVal.jobj f ∧
        (jLookup f "raw_input").isSome = true ∧ (jLookup f "output").isSome = true := by
  cases it <;> simp [validItem]

theorem validateResponse_iff (n : Nat) (v : JVal) :
    validateResponse n v = true ↔ specAccepts n v := by
  rcases v with _ | b | i | s | l | fields
  · simp [validateResponse, specAccepts]
  · simp [validateResponse, specAccepts]
  · simp [validateResponse, specAccepts]
  · simp [validateResponse, specAccepts]
  · simp [validateResponse, specAccepts]
  · rcases hsd : jLookup fields "standardized_data" with _ | w
    · simp [validateResponse, specAccepts, hsd]
    · rcases w with _ | b | i | s | items | f2
      · simp [validateResponse, specAccepts, hsd]
      · simp [validateResponse, specAccepts, hsd]
      · simp [validateResponse, specAccepts, hsd]
      · simp [validateResponse, specAccepts, hsd]
      · simp [validateResponse, specAccepts, hsd, List.all_eq_true, validItem_iff]
      · simp [validateResponse, specAccepts, hsd]

theorem dictLookup_nil (k : String) : dictLookup [] k = none := rfl

theorem dictMem_eq_isSome (d : Dict) (k : String) :
    dictMem d k = (dictLookup d k).isSome := by
  induction d with
  | nil => rfl
  | cons p rest ih =>
    by_cases h : p.1 == k
    · simp [dictMem, dictLookup, List.find?_cons, h]
    · simp only [dictMem, dictLookup, List.any_cons, List.find?_cons, h] at ih ⊢
      simpa [h] using ih

theorem dictLookup_cons (p : String × String) (rest : Dict) (k : String) :
    dictLookup (p :: rest) k = if p.1 = k then some p.2 else dictLookup rest k := by
  by_cases h : p.1 = k <;> simp [dictLookup, List.find?_cons, h]

/-- Inserting under a different key does not change a lookup. -/
theorem dictLookup_insert_ne (d : Dict) (k v k' : String) (h : k ≠ k') :
    dictLookup (dictInsert d k v) k' = dictLookup d k' := by
  have hmap : ∀ (l : Dict),
      dictLookup (l.map (fun p => if p.1 = k then (k, v) else p)) k' = dictLookup l k' := by
    intro l
    induction l with
    | nil => rfl
    | cons p rest ih =>
      simp only [List.map_cons]
      rw [dictLookup_cons, dictLookup_cons]
      by_cases hp : p.1 = k
      · simp [hp, h, ih]
      · simp only [if_neg hp]
        by_cases hp2 : p.1 = k' <;> simp [hp2, ih]
  have happ : dictLookup (d ++ [(k, v)]) k' = dictLookup d k' := by
    induction d with
    | nil =>
      show dictLookup ((k, v) :: []) k' = dictLookup [] k'
      rw [dictLookup_cons]
      simp [h]
    | cons p rest ih =>
      rw [List.cons_append, dictLookup_cons, dictLookup_cons]
      by_cases hp2 : p.1 = k' <;> simp [hp2, ih]
  have hfun : (fun p : String × String => if p.1 == k then (k, v) else p)
      = (fun p : String × String => if p.1 = k then (k, v) else p) := by
    funext p
    simp [beq_iff_eq]
  unfold dictInsert
  by_cases hm : dictMem d k
  · rw [if_pos hm, hfun]
    exact hmap d
  · rw [if_neg (by simp [hm])]
    exact happ

/-- Updating with pairs that avoid a key does not change its lookup. -/
theorem dictLookup_update_ne (d e : Dict) (k : String)
    (h : ∀ p ∈ e, p.1 ≠ k) : dictLookup (dictUpdate d e) k = dictLookup d k := by
  induction e generalizing d with
  | nil => rfl
  | cons p rest ih =>
    have hp : p.1 ≠ k := h p (by simp)
    have hrest : ∀ q ∈ rest, q.1 ≠ k := fun q hq => h q (by simp [hq])
    simp only [dictUpdate, List.foldl_cons]
    rw [show (rest.foldl (fun acc q => dictInsert acc q.1 q.2) (dictInsert d p.1 p.2)) =
        dictUpdate (dictInsert d p.1 p.2) rest from rfl]
    rw [ih (dictInsert d p.1 p.2) hrest]
    exact dictLookup_insert_ne d p.1 p.2 k hp

/-- A fold of inserts whose keys avoid `k` does not change its lookup. -/
theorem dictLookup_foldl_ident_ne (l : List String) (acc : Dict) (k : String)
    (h : ∀ raw ∈ l, pyStrip raw ≠ k) :
    dictLookup (l.foldl (fun a raw => dictInsert a (pyStrip raw) (pyStrip raw)) acc) k =
      dictLookup acc k := by
  induction l generalizing acc with
  | nil => rfl
  | cons raw rest ih =>
    simp only [List.foldl_cons]
    rw [ih (dictInsert acc (pyStrip raw) (pyStrip raw)) (fun q hq => h q (by simp [hq]))]
    exact dictLookup_insert_ne acc (pyStrip raw) (pyStrip raw) k (h raw (by simp))

theorem identDict_lookup_ne (l : List String) (k : String)
    (h : ∀ raw ∈ l, pyStrip raw ≠ k) : dictLookup (identDict l) k = none :=
  (dictLookup_foldl_ident_ne l [] k h).trans rfl

/-- Keys inserted by `buildMapping` beyond the accumulator are stripped
echo fields; a key none of the items echoes keeps its accumulator
lookup. -/
theorem buildMapping_lookup_ne (items : List JVal) (acc fm : Dict) (k : String)
    (hb : buildMapping items acc = some fm)
    (h : ∀ it ∈ items, ∀ f, it = JVal.jobj f → ∀ s, jGet f "raw_input" = JVal.jstr s →
      pyStrip s ≠ k) :
    dictLookup fm k = dictLookup acc k := by
  induction items generalizing acc with
  | nil =>
    simp only [buildMapping, Option.some.injEq] at hb
    rw [hb]
  | cons it rest ih =>
    rcases it with _ | b | i | s | l | f
    · simp [buildMapping] at hb
    · simp [buildMapping] at hb
    · simp [buildMapping] at hb
    · simp [buildMapping] at hb
    · simp [buildMapping] at hb
    · have hrest : ∀ it ∈ rest, ∀ f2, it = JVal.jobj f2 → ∀ s, jGet f2 "raw_input" = JVal.jstr s →
          pyStrip s ≠ k := fun it hit => h it (by simp [hit])
      rcases hraw : jGet f "raw_input" with _ | b | i | r | l2 | f2 <;>
        rcases hout : jGet f "output" with _ | b2 | i2 | c | l3 | f3 <;>
          simp only [buildMapping, hraw, hout] at hb <;>
            first
            | exact ih acc hb hrest
            | (exact absurd hb (by simp))
            | (rw [ih _ hb hrest]
               exact dictLookup_insert_ne acc (pyStrip r) (pyStrip c) k
                 (h (JVal.jobj f) (by simp) f rfl r hraw))

/-- The retry loop never reports success when no attempt's response
validates. -/
theorem attemptLoop_not_valid (oracle : Nat → PromptResult) (n : Nat)
    (h : ∀ a v, respVal (oracle a) = some v → validateResponse n v = false) :
    ∀ remaining k r s, (attemptLoop oracle n remaining k r s).valid = false := by
  intro remaining
  induction remaining with
  | zero =>
    intro k r s
    rfl
  | succ m ih =>
    intro k r s
    show (match oracle (k + 1) with
      | PromptResult.exn => attemptLoop oracle n m (k + 1) r (s ++ [5])
      | PromptResult.strResp none => attemptLoop oracle n m (k + 1) none s
      | PromptResult.strResp (some v) =>
        if validateResponse n v then ⟨some v, true, s, k + 1⟩
        else attemptLoop oracle n m (k + 1) (some v) (s ++ [2])
      | PromptResult.val v =>
        if validateResponse n v then ⟨some v, true, s, k + 1⟩
        else attemptLoop oracle n m (k + 1) (some v) (s ++ [2])).valid = false
    rcases ho : oracle (k + 1) with _ | p | v
    · exact ih (k + 1) r (s ++ [5])
    · rcases p with _ | v
      · exact ih (k + 1) none s
      · have hv : validateResponse n v = false := h (k + 1) v (by rw [ho]; rfl)
        simp only [hv, if_false, Bool.false_eq_true]
        exact ih (k + 1) (some v) (s ++ [2])
    · have hv : validateResponse n v = false := h (k + 1) v (by rw [ho]; rfl)
      simp only [hv, if_false, Bool.false_eq_true]
      exact ih (k + 1) (some v) (s ++ [2])

/-- When the retry loop reports success, its response is a value some
attempt's oracle call produced, and it passed validation. -/
theorem attemptLoop_valid_response (oracle : Nat → PromptResult) (n : Nat) :
    ∀ remaining k r s, (attemptLoop oracle n remaining k r s).valid = true →
      ∃ a v, (attemptLoop oracle n remaining k r s).response = some v ∧
        respVal (oracle a) = some v ∧ validateResponse n v = true := by
  intro remaining
  induction remaining with
  | zero =>
    intro k r s hv
    exact absurd hv (by rw [show (attemptLoop oracle n 0 k r s).valid = false from rfl]; simp)
  | succ m ih =>
    intro k r s
    show (match oracle (k + 1) with
      | PromptResult.exn => attemptLoop oracle n m (k + 1) r (s ++ [5])
      | PromptResult.strResp none => attemptLoop oracle n m (k + 1) none s
      | PromptResult.strResp (some v) =>
        if validateResponse n v then ⟨some v, true, s, k + 1⟩
        else attemptLoop oracle n m (k + 1) (some v) (s ++ [2])
      | PromptResult.val v =>
        if validateResponse n v then ⟨some v, true, s, k + 1⟩
        else attemptLoop oracle n m (k + 1) (some v) (s ++ [2]) : LoopResult).valid = true →
      ∃ a v, (match oracle (k + 1) with
      | PromptResult.exn => attemptLoop oracle n m (k + 1) r (s ++ [5])
      | PromptResult.strResp none => attemptLoop oracle n m (k + 1) none s
      | PromptResult.strResp (some v) =>
        if validateResponse n v then ⟨some v, true, s, k + 1⟩
        else attemptLoop oracle n m (k + 1) (some v) (s ++ [2])
      | PromptResult.val v =>
        if validateResponse n v then ⟨some v, true, s, k + 1⟩
        else attemptLoop oracle n m (k + 1) (some v) (s ++ [2]) : LoopResult).response = some v ∧
        respVal (oracle a) = some v ∧ validateResponse n v = true
    rcases ho : oracle (k + 1) with _ | p | v
    · exact fun hv => ih (k + 1) r (s ++ [5]) hv
    · rcases p with _ | v
      · exact fun hv => ih (k + 1) none s hv
      · by_cases hval : validateResponse n v = true
        · simp only [hval, if_true]
          exact fun _ => ⟨k + 1, v, rfl, by rw [ho]; rfl, hval⟩
        · simp only [Bool.not_eq_true] at hval
          simp only [hval, if_false, Bool.false_eq_true]
          exact fun hv => ih (k + 1) (some v) (s ++ [2]) hv
    · by_cases hval : validateResponse n v = true
      · simp only [hval, if_true]
        exact fun _ => ⟨k + 1, v, rfl, by rw [ho]; rfl, hval⟩
      · simp only [Bool.not_eq_true] at hval
        simp only [hval, if_false, Bool.false_eq_true]
        exact fun hv => ih (k + 1) (some v) (s ++ [2]) hv

/-! ## C1: acceptance requires exactly n well-formed items; otherwise the
whole response is rejected -/

/-- C1: `process_batch` accepts a response exactly when it carries
`"standardized_data"` as a list of exactly `n` items (with `n` the number
of requested values) each of which is a dict carrying both `"raw_input"`
and `"output"`; and when no attempt produces such a response, the
resulting mapping is the cache plus the fallback only — no item of any
malformed response is accepted. -/
theorem spec_C1 :
    (∀ n v, validateResponse n v = true ↔ specAccepts n v) ∧
    (∀ (oracle : List String → Nat → PromptResult) (batchValues : List String)
       (cityFlag : Bool) (loaded : Dict),
      (∀ a v, respVal (oracle (pendingOf batchValues loaded) a) = some v →
        validateResponse (pendingOf batchValues loaded).length v = false) →
      pendingOf batchValues loaded ≠ [] →
      (processBatchCore oracle batchValues cityFlag loaded).outcome =
        CoreOutcome.done (dictUpdate loaded
          (if cityFlag then []
           else identDict (pendingOf batchValues loaded)))) := by
  constructor
  · exact validateResponse_iff
  · intro oracle batchValues cityFlag loaded h hne
    have hval := attemptLoop_not_valid
      (oracle (pendingOf batchValues loaded))
      (pendingOf batchValues loaded).length h 3 0 none []
    simp only [processBatchCore]
    rw [if_neg (by simpa [List.isEmpty_iff] using hne)]
    simp [hval]

/-- Witness for C1 at a concrete response and a concrete all-failing
oracle. -/
theorem spec_C1_witness :
    (validateResponse 1 (JVal.jobj [("standardized_data",
        JVal.jarr [JVal.jobj [("raw_input", JVal.jstr "A"), ("output", JVal.jstr "B")]])]) = true ↔
      specAccepts 1 (JVal.jobj [("standardized_data",
        JVal.jarr [JVal.jobj [("raw_input", JVal.jstr "A"), ("output", JVal.jstr "B")]])])) ∧
    (processBatchCore (fun _ _ => PromptResult.exn) ["A"] false []).outcome =
      CoreOutcome.done (dictUpdate [] (if false then [] else identDict (pendingOf ["A"] []))) :=
  ⟨spec_C1.1 1 _,
   spec_C1.2 (fun _ _ => PromptResult.exn) ["A"] false []
     (fun a v h => by simp [respVal] at h) (by decide)⟩

/-! ## C7: loading the cache file never fails the caller -/

/-- C7: with the batch's cache file absent or corrupt, the load step
yields the empty mapping and `process_batch` behaves exactly as with no
file at all, instead of failing the run. -/
theorem spec_C7 (oracle : List String → Nat → PromptResult)
    (batchValues : List String) (tempDir manifest folderName column : String)
    (i : Nat) (cityFlag : Bool) (fs : Fs)
    (h : fs (batchTempFile tempDir manifest folderName column i) = some FileData.corrupt ∨
         fs (batchTempFile tempDir manifest folderName column i) = none) :
    loadCacheFile fs (batchTempFile tempDir manifest folderName column i) = [] ∧
    (processBatch oracle batchValues tempDir manifest folderName column i cityFlag fs).result =
      (processBatch oracle batchValues tempDir manifest folderName column i cityFlag
        (fun q => if q = batchTempFile tempDir manifest folderName column i then none else fs q)).result ∧
    (processBatch oracle batchValues tempDir manifest folderName column i cityFlag fs).sleeps =
      (processBatch oracle batchValues tempDir manifest folderName column i cityFlag
        (fun q => if q = batchTempFile tempDir manifest folderName column i then none else fs q)).sleeps ∧
    (processBatch oracle batchValues tempDir manifest folderName column i cityFlag fs).attempts =
      (processBatch oracle batchValues tempDir manifest folderName column i cityFlag
        (fun q => if q = batchTempFile tempDir manifest folderName column i then none else fs q)).attempts := by
  have hload : loadCacheFile fs (batchTempFile tempDir manifest folderName column i) = [] := by
    rcases h with h | h <;> simp [loadCacheFile, h]
  have hloadA : loadCacheFile
      (fun q => if q = batchTempFile tempDir manifest folderName column i then none else fs q)
      (batchTempFile tempDir manifest folderName column i) = [] := by
    simp [loadCacheFile]
  refine ⟨hload, ?_⟩
  simp only [processBatch, hload, hloadA]
  cases (processBatchCore oracle batchValues cityFlag []).outcome <;> simp

/-- Witness for C7: a concrete corrupt cache file. -/
theorem spec_C7_witness :
    loadCacheFile (writeFs emptyFs (batchTempFile "t" "m" "f" "col" 0) FileData.corrupt)
      (batchTempFile "t" "m" "f" "col" 0) = [] ∧
    (processBatch (fun _ _ => PromptResult.exn) ["A"] "t" "m" "f" "col" 0 false
      (writeFs emptyFs (batchTempFile "t" "m" "f" "col" 0) FileData.corrupt)).result =
      (processBatch (fun _ _ => PromptResult.exn) ["A"] "t" "m" "f" "col" 0 false
        (fun q => if q = batchTempFile "t" "m" "f" "col" 0 then none
          else writeFs emptyFs (batchTempFile "t" "m" "f" "col" 0) FileData.corrupt q)).result := by
  have h := spec_C7 (fun _ _ => PromptResult.exn) ["A"] "t" "m" "f" "col" 0 false
    (writeFs emptyFs (batchTempFile "t" "m" "f" "col" 0) FileData.corrupt)
    (Or.inl (by simp [writeFs, emptyFs]))
  exact ⟨h.1, h.2.1⟩

/-! ## C8: the cache write is not atomic; a partial file degrades to the
empty mapping on the next load -/

/-- Counterexample to C8 as stated: `process_batch` persists with a
plain truncate-and-write (`open(temp_file, "w")` + `json.dump`), not
write-to-temp-then-rename, so an interruption leaves a state in which
the cache file holds neither the old mapping nor the new one. -/
theorem spec_C8_counterexample :
    ¬ (∀ g ∈ saveWriteStates
        (writeFs emptyFs (batchTempFile "t" "m" "f" "col" 0) (FileData.good [("A", "X")]))
        (batchTempFile "t" "m" "f" "col" 0) [("A", "X"), ("B", "Y")],
        g (batchTempFile "t" "m" "f" "col" 0) =
          (writeFs emptyFs (batchTempFile "t" "m" "f" "col" 0) (FileData.good [("A", "X")]))
            (batchTempFile "t" "m" "f" "col" 0) ∨
        g (batchTempFile "t" "m" "f" "col" 0) =
          some (FileData.good [("A", "X"), ("B", "Y")])) := by
  intro hcl
  have hg := hcl (writeFs
      (writeFs emptyFs (batchTempFile "t" "m" "f" "col" 0) (FileData.good [("A", "X")]))
      (batchTempFile "t" "m" "f" "col" 0) FileData.corrupt)
    (by simp [saveWriteStates])
  rcases hg with h1 | h1 <;> simp [writeFs, emptyFs] at h1

/-- C8 amended: the completed write leaves exactly the serialized new
mapping at the final path, and any state an interrupted save can leave
behind loads as either the full new mapping or the empty mapping — a
partially written file is never loaded as a (wrong) valid mapping,
because `json.load` fails on it and the loader degrades to empty. -/
theorem spec_C8 (fs : Fs) (p : String) (m : Dict) :
    writeFs fs p (FileData.good m) p = some (FileData.good m) ∧
    ∀ g ∈ saveWriteStates fs p m, loadCacheFile g p = [] ∨ loadCacheFile g p = m := by
  constructor
  · simp [writeFs]
  · intro g hg
    simp only [saveWriteStates, List.mem_cons, List.not_mem_nil, or_false] at hg
    rcases hg with hg | hg
    · subst hg
      left
      simp [loadCacheFile, writeFs]
    · subst hg
      right
      simp [loadCacheFile, writeFs]

/-- Witness for C8 at a concrete interrupted state. -/
theorem spec_C8_witness :
    loadCacheFile (writeFs emptyFs "t/f.json" FileData.corrupt) "t/f.json" = [] ∨
    loadCacheFile (writeFs emptyFs "t/f.json" FileData.corrupt) "t/f.json" = [("A", "B")] :=
  (spec_C8 emptyFs "t/f.json" [("A", "B")]).2
    (writeFs emptyFs "t/f.json" FileData.corrupt) (by simp [saveWriteStates])

/-! ## C2: stability of existing cache entries -/

theorem dictLookup_eq_none_iff (d : Dict) (k : String) :
    dictLookup d k = none ↔ ∀ p ∈ d, p.1 ≠ k := by
  simp [dictLookup, List.find?_eq_none]

theorem mem_pendingOf_subset (batchValues : List String) (loaded : Dict) (v : String)
    (h : v ∈ pendingOf batchValues loaded) : v ∈ batchValues :=
  (List.mem_filter.1 h).1

theorem not_mem_pendingOf_of_lookup (batchValues : List String) (loaded : Dict)
    (k : String) (w : String) (hk : dictLookup loaded k = some w) :
    k ∉ pendingOf batchValues loaded := by
  intro hmem
  have h2 := (List.mem_filter.1 hmem).2
  have h3 : dictMem loaded k = true := by
    rw [dictMem_eq_isSome, hk]
    rfl
  simp [h3] at h2

/-- Core preservation: under stripped batch values and echoed responses,
the mapping `process_batch` computes - whether returned early or built
and persisted - retains every entry of the loaded cache mapping. -/
theorem processBatchCore_preserves (oracle : List String → Nat → PromptResult)
    (batchValues : List String) (cityFlag : Bool) (loaded : Dict)
    (Hstrip : ∀ v ∈ batchValues, pyStrip v = v)
    (Hecho : ∀ a, echoesRequest (pendingOf batchValues loaded)
      (oracle (pendingOf batchValues loaded) a))
    (k w : String) (hk : dictLookup loaded k = some w) :
    ∀ m, ((processBatchCore oracle batchValues cityFlag loaded).outcome = CoreOutcome.early m ∨
          (processBatchCore oracle batchValues cityFlag loaded).outcome = CoreOutcome.done m) →
      dictLookup m k = some w := by
  intro m hm
  have hkP : k ∉ pendingOf batchValues loaded :=
    not_mem_pendingOf_of_lookup batchValues loaded k w hk
  by_cases hemp : (pendingOf batchValues loaded).isEmpty
  · simp only [processBatchCore, hemp, if_true] at hm
    rcases hm with hm | hm
    · cases hm
      exact hk
    · cases hm
  · simp only [processBatchCore, hemp, if_false, Bool.false_eq_true] at hm
    set L := attemptLoop (oracle (pendingOf batchValues loaded))
      (pendingOf batchValues loaded).length 3 0 none [] with hL
    by_cases huse : (L.valid &&
      (match L.response with
       | some v => jTruthy v &&
         (match v with
          | JVal.jobj f => (jLookup f "standardized_data").isSome
          | _ => false)
       | none => false)) = true
    · have h2 := huse
      rw [Bool.and_eq_true] at h2
      obtain ⟨hvalid, hmatch⟩ := h2
      obtain ⟨a, v0, hresp, hov, hvd⟩ :=
        attemptLoop_valid_response (oracle (pendingOf batchValues loaded))
          (pendingOf batchValues loaded).length 3 0 none [] hvalid
      rw [← hL] at hresp
      rw [hresp] at hmatch
      simp only [Bool.and_eq_true] at hmatch
      obtain ⟨htr, hshape⟩ := hmatch
      rcases v0 with _ | b | n | s | l | f
      · exact Bool.noConfusion hshape
      · exact Bool.noConfusion hshape
      · exact Bool.noConfusion hshape
      · exact Bool.noConfusion hshape
      · exact Bool.noConfusion hshape
      · have hshape2 : (jLookup f "standardized_data").isSome = true := hshape
        rcases hsd : jLookup f "standardized_data" with _ | wv
        · rw [hsd] at hshape2
          exact Bool.noConfusion hshape2
        · rcases wv with _ | b | n | s | items | f2 <;>
            simp only [hresp, hsd, hvalid, htr, Option.isSome_some, Bool.and_self,
              Bool.and_true, Bool.true_and, if_true] at hm
          · rcases hm with hm | hm <;> cases hm
          · rcases hm with hm | hm <;> cases hm
          · rcases hm with hm | hm <;> cases hm
          · rcases hm with hm | hm <;> cases hm
          · rcases hbm : buildMapping items [] with _ | fm <;>
              simp only [hbm] at hm
            · rcases hm with hm | hm <;> cases hm
            · rcases hm with hm | hm
              · cases hm
              · cases hm
                have hitems : ∀ it ∈ items, ∀ f2, it = JVal.jobj f2 →
                    ∀ s, jGet f2 "raw_input" = JVal.jstr s → pyStrip s ≠ k := by
                  intro it hit f2 hitf s hraw hks
                  exact hkP (hks ▸ Hecho a (JVal.jobj f) hov f items rfl hsd it hit f2 hitf s hraw)
                have hfm : dictLookup fm k = none :=
                  (buildMapping_lookup_ne items [] fm k hbm hitems).trans rfl
                rw [dictLookup_update_ne loaded fm k ((dictLookup_eq_none_iff fm k).1 hfm)]
                exact hk
          · rcases hm with hm | hm <;> cases hm
    · have hfalse : (L.valid &&
        (match L.response with
         | some v => jTruthy v &&
           (match v with
            | JVal.jobj f => (jLookup f "standardized_data").isSome
            | _ => false)
         | none => false)) = false := by
        simpa using huse
      simp only [hfalse, if_false, Bool.false_eq_true] at hm
      rcases hm with hm | hm
      · cases hm
      · cases hm
        by_cases hc : cityFlag
        · simp only [hc, if_true]
          exact hk
        · simp only [hc, Bool.false_eq_true, if_false]
          have hid : dictLookup (identDict (pendingOf batchValues loaded)) k = none := by
            apply identDict_lookup_ne
            intro raw hraw
            rw [Hstrip raw (mem_pendingOf_subset batchValues loaded raw hraw)]
            intro hre
            exact hkP (hre ▸ hraw)
          rw [dictLookup_update_ne loaded _ k ((dictLookup_eq_none_iff _ k).1 hid)]
          exact hk

/-- Counterexample to C2 as stated: the validation never checks that an
item's echo field links back to the request, so a structurally valid
response that echoes an already-cached value overwrites its entry.
Here `"A"` is cached as `"X"`, only `"B"` is requested, and the response
echoes `"A"` with output `"Y"`: the persisted entry flips to `"Y"`
without the cache file ever being deleted. -/
theorem spec_C2_counterexample :
    dictLookup (loadCacheFile
      (writeFs emptyFs (batchTempFile "t" "m" "f" "col" 0) (FileData.good [("A", "X")]))
      (batchTempFile "t" "m" "f" "col" 0)) "A" = some "X" ∧
    (processBatch
      (fun _ _ => PromptResult.val (JVal.jobj [("standardized_data", JVal.jarr
        [JVal.jobj [("raw_input", JVal.jstr "A"), ("output", JVal.jstr "Y")]])]))
      ["A", "B"] "t" "m" "f" "col" 0 false
      (writeFs emptyFs (batchTempFile "t" "m" "f" "col" 0) (FileData.good [("A", "X")]))).result =
      some [("A", "Y")] ∧
    loadCacheFile
      ((processBatch
        (fun _ _ => PromptResult.val (JVal.jobj [("standardized_data", JVal.jarr
          [JVal.jobj [("raw_input", JVal.jstr "A"), ("output", JVal.jstr "Y")]])]))
        ["A", "B"] "t" "m" "f" "col" 0 false
        (writeFs emptyFs (batchTempFile "t" "m" "f" "col" 0) (FileData.good [("A", "X")]))).fs)
      (batchTempFile "t" "m" "f" "col" 0) = [("A", "Y")] ∧
    ("X" : String) ≠ "Y" := by
  refine ⟨by decide, by decide, by decide, by decide⟩

/-- C2 amended: provided the batch values are stripped strings (they are
pre-cleaned values) and every response item echoes one of the values
requested in that call, re-running `process_batch` never changes an
existing cache entry: the entry survives both in the returned mapping
and in the persisted file. -/
theorem spec_C2 (oracle : List String → Nat → PromptResult)
    (batchValues : List String) (tempDir manifest folderName column : String)
    (i : Nat) (cityFlag : Bool) (fs : Fs)
    (Hstrip : ∀ v ∈ batchValues, pyStrip v = v)
    (Hecho : ∀ a, echoesRequest
      (pendingOf batchValues (loadCacheFile fs (batchTempFile tempDir manifest folderName column i)))
      (oracle (pendingOf batchValues (loadCacheFile fs (batchTempFile tempDir manifest folderName column i))) a))
    (k w : String)
    (hk : dictLookup (loadCacheFile fs (batchTempFile tempDir manifest folderName column i)) k = some w) :
    (∀ m, (processBatch oracle batchValues tempDir manifest folderName column i cityFlag fs).result = some m →
      dictLookup m k = some w) ∧
    (∀ m, (processBatch oracle batchValues tempDir manifest folderName column i cityFlag fs).fs
        (batchTempFile tempDir manifest folderName column i) = some (FileData.good m) →
      dictLookup m k = some w) := by
  have hpres := processBatchCore_preserves oracle batchValues cityFlag
    (loadCacheFile fs (batchTempFile tempDir manifest folderName column i)) Hstrip Hecho k w hk
  rcases hout : (processBatchCore oracle batchValues cityFlag
      (loadCacheFile fs (batchTempFile tempDir manifest folderName column i))).outcome
    with m0 | _ | m0
  · constructor
    · intro m hmr
      simp only [processBatch, hout] at hmr
      cases hmr
      exact hpres m0 (Or.inl hout)
    · intro m hmf
      simp only [processBatch, hout] at hmf
      have : loadCacheFile fs (batchTempFile tempDir manifest folderName column i) = m := by
        simp [loadCacheFile, hmf]
      rw [← this]
      exact hk
  · constructor
    · intro m hmr
      simp only [processBatch, hout] at hmr
      cases hmr
    · intro m hmf
      simp only [processBatch, hout] at hmf
      have : loadCacheFile fs (batchTempFile tempDir manifest folderName column i) = m := by
        simp [loadCacheFile, hmf]
      rw [← this]
      exact hk
  · constructor
    · intro m hmr
      simp only [processBatch, hout] at hmr
      cases hmr
      exact hpres m0 (Or.inr hout)
    · intro m hmf
      simp only [processBatch, hout, writeFs] at hmf
      simp only [beq_self_eq_true, if_true] at hmf
      cases hmf
      exact hpres m0 (Or.inr hout)

/-- Witness for C2: `"A"` cached, `"B"` requested, the response echoes
exactly `"B"`; the cached entry for `"A"` is untouched. -/
theorem spec_C2_witness :
    (processBatch
      (fun _ _ => PromptResult.val (JVal.jobj [("standardized_data", JVal.jarr
        [JVal.jobj [("raw_input", JVal.jstr "B"), ("output", JVal.jstr "Z")]])]))
      ["A", "B"] "t" "m" "f" "col" 0 false
      (writeFs emptyFs (batchTempFile "t" "m" "f" "col" 0) (FileData.good [("A", "X")]))).result =
      some [("A", "X"), ("B", "Z")] ∧
    dictLookup [("A", "X"), ("B", "Z")] "A" = some "X" := by
  refine ⟨by decide, ?_⟩
  have h := spec_C2
    (fun _ _ => PromptResult.val (JVal.jobj [("standardized_data", JVal.jarr
      [JVal.jobj [("raw_input", JVal.jstr "B"), ("output", JVal.jstr "Z")]])]))
    ["A", "B"] "t" "m" "f" "col" 0 false
    (writeFs emptyFs (batchTempFile "t" "m" "f" "col" 0) (FileData.good [("A", "X")]))
    (by decide)
    (fun a => by
      intro v hv fields items hveq hsd it hit f hitf s hraw
      simp only [respVal, Option.some.injEq] at hv
      subst hv
      cases hveq
      simp only [jLookup, List.find?, Option.some.injEq] at hsd
      cases hsd
      simp only [List.mem_singleton] at hit
      subst hit
      cases hitf
      simp only [jGet, jLookup, List.find?] at hraw
      cases hraw
      decide)
    "A" "X" (by decide)
  exact h.1 [("A", "X"), ("B", "Z")] (by decide)

/-! ## C6: retry counts and delays -/

theorem askGemmaLoop_calls_le (h : Nat → HttpOutcome) (retries delay : Nat) :
    ∀ remaining attempt sleeps calls,
      (askGemmaLoop h retries delay remaining attempt sleeps calls).calls ≤ calls + remaining := by
  intro remaining
  induction remaining with
  | zero =>
    intro attempt sleeps calls
    exact Nat.le_refl _
  | succ m ih =>
    intro attempt sleeps calls
    simp only [askGemmaLoop]
    split
    · show calls + 1 ≤ calls + (m + 1)
      omega
    · show calls + 1 ≤ calls + (m + 1)
      omega
    · show calls + 1 ≤ calls + (m + 1)
      omega
    · split
      · have := ih (attempt + 1) (sleeps ++ [delay]) (calls + 1)
        omega
      · show calls + 1 ≤ calls + (m + 1)
        omega
    · split
      · have := ih (attempt + 1) (sleeps ++ [delay]) (calls + 1)
        omega
      · show calls + 1 ≤ calls + (m + 1)
        omega

theorem askGemmaLoop_sleeps (h : Nat → HttpOutcome) (retries delay : Nat) :
    ∀ remaining attempt sleeps calls, (∀ s ∈ sleeps, s = delay) →
      ∀ s ∈ (askGemmaLoop h retries delay remaining attempt sleeps calls).sleeps, s = delay := by
  intro remaining
  induction remaining with
  | zero =>
    intro attempt sleeps calls hs
    exact hs
  | succ m ih =>
    intro attempt sleeps calls hs
    have hs2 : ∀ s ∈ sleeps ++ [delay], s = delay := by
      intro s hmem
      rcases List.mem_append.1 hmem with hmem | hmem
      · exact hs s hmem
      · simpa using hmem
    simp only [askGemmaLoop]
    split
    · exact hs
    · exact hs
    · exact hs
    · split
      · exact ih (attempt + 1) (sleeps ++ [delay]) (calls + 1) hs2
      · exact hs
    · split
      · exact ih (attempt + 1) (sleeps ++ [delay]) (calls + 1) hs2
      · exact hs

theorem askGemma_calls_le (h : Nat → HttpOutcome) : (askGemma h).calls ≤ 3 :=
  askGemmaLoop_calls_le h 3 5 3 0 [] 0

theorem askGemma_sleeps (h : Nat → HttpOutcome) :
    ∀ s ∈ (askGemma h).sleeps, s = 5 :=
  askGemmaLoop_sleeps h 3 5 3 0 [] 0 (by simp)

theorem attemptLoop_attempts_le (oracle : Nat → PromptResult) (n : Nat) :
    ∀ remaining k r s, (attemptLoop oracle n remaining k r s).attempts ≤ k + remaining := by
  intro remaining
  induction remaining with
  | zero =>
    intro k r s
    exact Nat.le_refl _
  | succ m ih =>
    intro k r s
    simp only [attemptLoop]
    split
    · have := ih (k + 1) r (s ++ [5])
      omega
    · have := ih (k + 1) none s
      omega
    all_goals split
    · show k + 1 ≤ k + (m + 1)
      omega
    · exact Nat.le_trans (ih (k + 1) _ (s ++ [2])) (by omega)
    · show k + 1 ≤ k + (m + 1)
      omega
    · exact Nat.le_trans (ih (k + 1) _ (s ++ [2])) (by omega)

theorem attemptLoop_sleeps (oracle : Nat → PromptResult) (n : Nat) :
    ∀ remaining k r s, (∀ x ∈ s, x = 2 ∨ x = 5) →
      ∀ x ∈ (attemptLoop oracle n remaining k r s).sleeps, x = 2 ∨ x = 5 := by
  intro remaining
  induction remaining with
  | zero =>
    intro k r s hs
    exact hs
  | succ m ih =>
    intro k r s hs
    have hs5 : ∀ x ∈ s ++ [5], x = 2 ∨ x = 5 := by
      intro x hmem
      rcases List.mem_append.1 hmem with hmem | hmem
      · exact hs x hmem
      · right
        simpa using hmem
    have hs2 : ∀ x ∈ s ++ [2], x = 2 ∨ x = 5 := by
      intro x hmem
      rcases List.mem_append.1 hmem with hmem | hmem
      · exact hs x hmem
      · left
        simpa using hmem
    simp only [attemptLoop]
    split
    · exact ih (k + 1) r (s ++ [5]) hs5
    · exact ih (k + 1) none s hs
    all_goals split
    · exact hs
    · exact ih (k + 1) _ (s ++ [2]) hs2
    · exact hs
    · exact ih (k + 1) _ (s ++ [2]) hs2

/-- The core either returns early with no attempts and no sleeps, or its
sleeps and attempt count are those of the retry loop. -/
theorem processBatchCore_shape (oracle : List String → Nat → PromptResult)
    (batchValues : List String) (cityFlag : Bool) (loaded : Dict) :
    ((processBatchCore oracle batchValues cityFlag loaded).sleeps = [] ∧
     (processBatchCore oracle batchValues cityFlag loaded).attempts = 0) ∨
    ((processBatchCore oracle batchValues cityFlag loaded).sleeps =
        (attemptLoop (oracle (pendingOf batchValues loaded))
          (pendingOf batchValues loaded).length 3 0 none []).sleeps ∧
     (processBatchCore oracle batchValues cityFlag loaded).attempts =
        (attemptLoop (oracle (pendingOf batchValues loaded))
          (pendingOf batchValues loaded).length 3 0 none []).attempts) := by
  by_cases hemp : (pendingOf batchValues loaded).isEmpty
  · left
    simp [processBatchCore, hemp]
  · right
    simp only [processBatchCore, hemp, Bool.false_eq_true, if_false]
    constructor <;> (repeat' split) <;> rfl

/-- C6 amended: the retry structure is two nested loops with constant
delays — `_ask_gemma` makes at most 3 HTTP requests per prompt with a
fixed 5-second delay between them, and `process_batch` makes at most 3
prompt attempts with fixed delays (2 seconds after an invalid response,
5 after an exception, none after a parse failure) — so a batch issues at
most 9 HTTP requests, and no delay grows with the attempt number. -/
theorem spec_C6 (h : Nat → Nat → HttpOutcome) (batchValues : List String)
    (tempDir manifest folderName column : String) (i : Nat) (cityFlag : Bool) (fs : Fs) :
    (processBatch (composedOracle h) batchValues tempDir manifest folderName column i cityFlag fs).attempts ≤ 3 ∧
    (∀ s ∈ (processBatch (composedOracle h) batchValues tempDir manifest folderName column i cityFlag fs).sleeps,
      s = 2 ∨ s = 5) ∧
    totalHttpCalls h
      (processBatch (composedOracle h) batchValues tempDir manifest folderName column i cityFlag fs).attempts ≤ 9 ∧
    (∀ a, (askGemma (h a)).calls ≤ 3 ∧ ∀ s ∈ (askGemma (h a)).sleeps, s = 5) := by
  set loaded := loadCacheFile fs (batchTempFile tempDir manifest folderName column i) with hl
  have hsleeps : (processBatch (composedOracle h) batchValues tempDir manifest folderName column i cityFlag fs).sleeps =
      (processBatchCore (composedOracle h) batchValues cityFlag loaded).sleeps := by
    simp only [processBatch, ← hl]
    cases (processBatchCore (composedOracle h) batchValues cityFlag loaded).outcome <;> rfl
  have hatt : (processBatch (composedOracle h) batchValues tempDir manifest folderName column i cityFlag fs).attempts =
      (processBatchCore (composedOracle h) batchValues cityFlag loaded).attempts := by
    simp only [processBatch, ← hl]
    cases (processBatchCore (composedOracle h) batchValues cityFlag loaded).outcome <;> rfl
  have hshape := processBatchCore_shape (composedOracle h) batchValues cityFlag loaded
  have hattempts3 : (processBatchCore (composedOracle h) batchValues cityFlag loaded).attempts ≤ 3 := by
    rcases hshape with ⟨_, h2⟩ | ⟨_, h2⟩
    · omega
    · rw [h2]
      exact attemptLoop_attempts_le _ _ 3 0 none []
  refine ⟨by rw [hatt]; exact hattempts3, ?_, ?_, fun a => ⟨askGemma_calls_le (h a), askGemma_sleeps (h a)⟩⟩
  · intro s hs
    rw [hsleeps] at hs
    rcases hshape with ⟨h1, _⟩ | ⟨h1, _⟩
    · rw [h1] at hs
      cases hs
    · rw [h1] at hs
      exact attemptLoop_sleeps _ _ 3 0 none [] (by simp) s hs
  · have hterm : ∀ x ∈ (List.range
        (processBatch (composedOracle h) batchValues tempDir manifest folderName column i cityFlag fs).attempts).map
          (fun k => (askGemma (h (k + 1))).calls), x ≤ 3 := by
      intro x hx
      rcases List.mem_map.1 hx with ⟨k, _, hk⟩
      rw [← hk]
      exact askGemma_calls_le (h (k + 1))
    have hsum := List.sum_le_card_nsmul _ 3 hterm
    rw [List.length_map, List.length_range] at hsum
    rw [hatt] at hsum ⊢
    calc totalHttpCalls h (processBatchCore (composedOracle h) batchValues cityFlag loaded).attempts
        ≤ (processBatchCore (composedOracle h) batchValues cityFlag loaded).attempts • 3 := hsum
      _ ≤ 3 * 3 := by
          have := hattempts3
          simp only [smul_eq_mul]
          omega
      _ ≤ 9 := by omega

/-- Counterexample to C6 as stated: with every HTTP request failing at
the network level, one `process_batch` call issues 9 HTTP requests (not
at most 3): 3 outer prompt attempts, each triggering 3 inner HTTP
attempts inside `_ask_gemma`.  The delays slept are 5, 5 inside each
`_ask_gemma` call and 2 after each outer attempt — the full delay
sequence is [5, 5, 2, 5, 5, 2, 5, 5, 2], which is constant per failure
kind, not growing per attempt. -/
theorem spec_C6_counterexample :
    totalHttpCalls (fun _ _ => HttpOutcome.reqExn)
      (processBatch (composedOracle (fun _ _ => HttpOutcome.reqExn))
        ["A"] "t" "m" "f" "col" 0 false emptyFs).attempts = 9 ∧
    ¬ (totalHttpCalls (fun _ _ => HttpOutcome.reqExn)
      (processBatch (composedOracle (fun _ _ => HttpOutcome.reqExn))
        ["A"] "t" "m" "f" "col" 0 false emptyFs).attempts ≤ 3) ∧
    (processBatch (composedOracle (fun _ _ => HttpOutcome.reqExn))
      ["A"] "t" "m" "f" "col" 0 false emptyFs).sleeps = [2, 2, 2] ∧
    (askGemma ((fun (_ _ : Nat) => HttpOutcome.reqExn) 1)).sleeps = [5, 5] ∧
    ((List.range 3).map
      (fun k => (askGemma ((fun (_ _ : Nat) => HttpOutcome.reqExn) (k + 1))).sleeps ++ [2])).flatten =
      [5, 5, 2, 5, 5, 2, 5, 5, 2] ∧
    ¬ List.Chain' (· < ·) [5, 5, 2, 5, 5, 2, 5, 5, 2] := by
  refine ⟨by decide, by decide, by decide, by decide, by decide, ?_⟩
  intro hch
  rw [List.chain'_cons] at hch
  exact absurd hch.1 (by decide)

/-- Witness for C6 at the all-failing oracle. -/
theorem spec_C6_witness :
    (processBatch (composedOracle (fun _ _ => HttpOutcome.reqExn))
      ["A"] "t" "m" "f" "col" 0 false emptyFs).attempts ≤ 3 ∧
    ((2 : Nat) = 2 ∨ (2 : Nat) = 5) := by
  have h := spec_C6 (fun _ _ => HttpOutcome.reqExn) ["A"] "t" "m" "f" "col" 0 false emptyFs
  exact ⟨h.1, h.2.1 2 (by decide)⟩

/-! ## C4: fallback for unmapped values -/

/-- Counterexample to C4 as stated: with `city_flag` true and a value
the service never normalized, the output cell holds the pre-cleaned
value, not null — the `fillna(pre_col)` of line 470 applies regardless
of `city_flag`. -/
theorem spec_C4_counterexample :
    (standardizeColumn (fun _ _ => PromptResult.exn) [] [] "t" "m" "f" "col" 10 true
      [some "A"] emptyFs).output = some [some "A"] ∧
    dictLookup (standardizeColumn (fun _ _ => PromptResult.exn) [] [] "t" "m" "f" "col" 10 true
      [some "A"] emptyFs).mapping "A" = none ∧
    (some "A" : Option String) ≠ none := by
  refine ⟨by decide, by decide, by decide⟩

/-- The output column built at lines 469-470: `map` then `fillna`
applied at one row index. -/
theorem outputCol_get (fm2 : Dict) (preS : List String) (i : Nat) (p : String)
    (hp : preS[i]? = some p) (hnone : dictLookup fm2 p = none) :
    (((preS.map (fun q => dictLookup fm2 q)).zip preS).map
      (fun q => match q.1 with
        | some v => some v
        | none => some q.2))[i]? = some (some p) := by
  have hm : (preS.map (fun q => dictLookup fm2 q))[i]? = some none := by
    rw [List.getElem?_map, hp]
    simp [hnone]
  rw [List.getElem?_map]
  rw [show ((preS.map (fun q => dictLookup fm2 q)).zip preS)[i]? = some (none, p) from
    List.getElem?_zip_eq_some.2 ⟨hm, hp⟩]
  rfl

/-- C4 amended: under both fallback policies, a row whose pre-cleaned
value is absent from the final mapping gets the pre-cleaned value as its
output cell — with `city_flag` true just as with `city_flag` false,
because the final `fillna(pre_col)` is applied unconditionally. -/
theorem spec_C4 (oracle : List String → Nat → PromptResult)
    (abbrevs : List (String × String)) (unwanted : List String)
    (tempDir manifest folderName column : String) (chunkSize : Nat) (cityFlag : Bool)
    (rows : List (Option String)) (fs : Fs) :
    ∀ out, (standardizeColumn oracle abbrevs unwanted tempDir manifest folderName column
        chunkSize cityFlag rows fs).output = some out →
      ∀ i (hi : i < rows.length),
        dictLookup (standardizeColumn oracle abbrevs unwanted tempDir manifest folderName column
            chunkSize cityFlag rows fs).mapping
          (pyStrip (localCleanName abbrevs unwanted (rows.get ⟨i, hi⟩))) = none →
        out.get? i = some (some (pyStrip (localCleanName abbrevs unwanted (rows.get ⟨i, hi⟩)))) := by
  intro out hout i hi hnone
  by_cases hemp : ((listUnique (rows.map (localCleanName abbrevs unwanted))).filter
      (fun u => u ≠ "")).isEmpty
  · simp only [standardizeColumn, hemp, if_true] at hout
    cases hout
  · simp only [standardizeColumn, hemp, Bool.false_eq_true, if_false] at hout hnone
    cases hout
    have hps : ((rows.map (localCleanName abbrevs unwanted)).map pyStrip)[i]? =
        some (pyStrip (localCleanName abbrevs unwanted (rows.get ⟨i, hi⟩))) := by
      rw [List.getElem?_map, List.getElem?_map]
      rw [List.getElem?_eq_getElem hi]
      rfl
    rw [List.get?_eq_getElem?]
    exact outputCol_get _ _ i _ hps hnone

/-- Witness for C4 at a concrete run with `city_flag` true. -/
theorem spec_C4_witness :
    (standardizeColumn (fun _ _ => PromptResult.exn) [] [] "t" "m" "f" "col" 10 true
        [some "A"] emptyFs).output = some [some "A"] ∧
    dictLookup (standardizeColumn (fun _ _ => PromptResult.exn) [] [] "t" "m" "f" "col" 10
        true [some "A"] emptyFs).mapping
      (pyStrip (localCleanName [] []
        (([some "A"] : List (Option String)).get ⟨0, by decide⟩))) = none ∧
    ([some "A"] : List (Option String)).get? 0 = some (some (pyStrip (localCleanName [] []
      (([some "A"] : List (Option String)).get ⟨0, by decide⟩)))) := by
  refine ⟨by decide, by decide, ?_⟩
  exact spec_C4 (fun _ _ => PromptResult.exn) [] [] "t" "m" "f" "col" 10 true
    [some "A"] emptyFs [some "A"] (by decide) 0 (by decide) (by decide)

/-! ## Path facts: the merge path differs from the persist path -/

theorem string_data_ne_nil {s : String} (h : s ≠ "") : s.data ≠ [] := by
  intro hd
  exact h (String.ext hd)

theorem string_length_pos {s : String} (h : s ≠ "") : 0 < s.length := by
  rcases Nat.eq_zero_or_pos s.length with h0 | h0
  · exact absurd (String.ext (List.length_eq_zero.1 h0)) h
  · exact h0

theorem tempFileName_head (c : String) (i : Nat) :
    (tempFileName c i).data.head? = some 't' := by
  unfold tempFileName
  simp only [String.data_append, List.append_assoc, List.head?_append]
  rfl

theorem tempFileName_head_ne_slash (c : String) (i : Nat) :
    (tempFileName c i).data.head? ≠ some '/' := by
  rw [tempFileName_head]
  simp

theorem pyJoin_length (a b : String) (hb : b.data.head? ≠ some '/') :
    (pyJoin a b).length =
      a.length + (if a = "" ∨ a.data.getLast? = some '/' then 0 else 1) + b.length := by
  unfold pyJoin
  rw [if_neg hb]
  by_cases h : a = "" ∨ a.data.getLast? = some '/'
  · rw [if_pos h, if_pos h, String.length_append]
    omega
  · rw [if_neg h, if_neg h, String.length_append, String.length_append]
    have : ("/" : String).length = 1 := rfl
    omega

theorem pyJoin_ne_empty (a b : String) (hb0 : b ≠ "") (hb : b.data.head? ≠ some '/') :
    pyJoin a b ≠ "" := by
  intro h
  have hlen := congrArg String.length h
  rw [pyJoin_length a b hb] at hlen
  have hbp := string_length_pos hb0
  have : ("" : String).length = 0 := rfl
  omega

theorem pyJoin_getLast (a b : String) (hb0 : b ≠ "") (hb : b.data.head? ≠ some '/') :
    (pyJoin a b).data.getLast? = b.data.getLast? := by
  have hsome : b.data.getLast?.isSome = true := by
    rw [List.getLast?_isSome]
    exact string_data_ne_nil hb0
  obtain ⟨y, hy⟩ := Option.isSome_iff_exists.1 hsome
  unfold pyJoin
  rw [if_neg hb]
  by_cases h : a = "" ∨ a.data.getLast? = some '/'
  · rw [if_pos h]
    simp only [String.data_append, List.getLast?_append, hy]
    rfl
  · rw [if_neg h]
    simp only [String.data_append, List.getLast?_append, hy]
    rfl

theorem mergeTempFile_ne_batchTempFile (t m f c : String) (i : Nat)
    (hm0 : m ≠ "") (hmh : m.data.head? ≠ some '/') (hml : m.data.getLast? ≠ some '/')
    (hf0 : f ≠ "") (hfh : f.data.head? ≠ some '/') (hfl : f.data.getLast? ≠ some '/') :
    mergeTempFile t f c i ≠ batchTempFile t m f c i := by
  intro h
  have hfn := tempFileName_head_ne_slash c i
  have hA : ¬(pyJoin t f = "" ∨ (pyJoin t f).data.getLast? = some '/') := by
    rintro (h1 | h1)
    · exact pyJoin_ne_empty t f hf0 hfh h1
    · rw [pyJoin_getLast t f hf0 hfh] at h1
      exact hfl h1
  have hC : ¬(pyJoin t m = "" ∨ (pyJoin t m).data.getLast? = some '/') := by
    rintro (h1 | h1)
    · exact pyJoin_ne_empty t m hm0 hmh h1
    · rw [pyJoin_getLast t m hm0 hmh] at h1
      exact hml h1
  have hB : ¬(pyJoin (pyJoin t m) f = "" ∨
      (pyJoin (pyJoin t m) f).data.getLast? = some '/') := by
    rintro (h1 | h1)
    · exact pyJoin_ne_empty (pyJoin t m) f hf0 hfh h1
    · rw [pyJoin_getLast (pyJoin t m) f hf0 hfh] at h1
      exact hfl h1
  have hlen := congrArg String.length h
  unfold mergeTempFile batchTempFile at hlen
  rw [pyJoin_length _ _ hfn, pyJoin_length _ _ hfn, if_neg hA, if_neg hB,
    pyJoin_length _ _ hfh, pyJoin_length _ _ hfh, if_neg hC,
    pyJoin_length _ _ hmh] at hlen
  have hmp := string_length_pos hm0
  by_cases ht : t = "" ∨ t.data.getLast? = some '/'
  · try simp only [if_pos ht] at hlen
    omega
  · try simp only [if_neg ht] at hlen
    omega

/-! ## C3: the post-dispatch merge does not re-read the workers' files -/

/-- C3, evaluated at the failing input: `process_batch` persists to
`os.path.join(TEMP_DIR, raw_manifest_filename, folder, ...)` while step 6
of `standardize_data` re-reads `os.path.join(TEMP_DIR, folder, ...)` — a
different path whenever the manifest name is non-empty.  Here the worker
persists the pair `("A", "")` (a valid response normalizing `"A"` to the
empty string, which the in-memory merge filter drops), and the final
mapping nevertheless lacks `"A"`: the persisted pair was never re-read. -/
theorem spec_C3 :
    (standardizeColumn
      (fun _ _ => PromptResult.val (JVal.jobj [("standardized_data", JVal.jarr
        [JVal.jobj [("raw_input", JVal.jstr "A"), ("output", JVal.jstr "")]])]))
      [] [] "t" "m" "f" "col" 10 false [some "A"] emptyFs).fs
      (batchTempFile "t" "m" "f" "col" 0) = some (FileData.good [("A", "")]) ∧
    dictLookup (standardizeColumn
      (fun _ _ => PromptResult.val (JVal.jobj [("standardized_data", JVal.jarr
        [JVal.jobj [("raw_input", JVal.jstr "A"), ("output", JVal.jstr "")]])]))
      [] [] "t" "m" "f" "col" 10 false [some "A"] emptyFs).mapping "A" = none ∧
    batchTempFile "t" "m" "f" "col" 0 ≠ mergeTempFile "t" "f" "col" 0 := by
  refine ⟨by decide, by decide, by decide⟩

/-! ## C10: empty normalized values are discarded by the in-memory merge -/

/-- One successful first attempt stops the retry loop at once. -/
theorem attemptLoop_first_valid (oracle : Nat → PromptResult) (n remaining k : Nat)
    (r : Option JVal) (s : List Nat) (v : JVal)
    (ho : oracle (k + 1) = PromptResult.val v) (hv : validateResponse n v = true) :
    attemptLoop oracle n (remaining + 1) k r s = ⟨some v, true, s, k + 1⟩ := by
  show (match oracle (k + 1) with
    | PromptResult.exn => attemptLoop oracle n remaining (k + 1) r (s ++ [5])
    | PromptResult.strResp none => attemptLoop oracle n remaining (k + 1) none s
    | PromptResult.strResp (some v2) =>
      if validateResponse n v2 then ⟨some v2, true, s, k + 1⟩
      else attemptLoop oracle n remaining (k + 1) (some v2) (s ++ [2])
    | PromptResult.val v2 =>
      if validateResponse n v2 then ⟨some v2, true, s, k + 1⟩
      else attemptLoop oracle n remaining (k + 1) (some v2) (s ++ [2])) =
    (⟨some v, true, s, k + 1⟩ : LoopResult)
  rw [ho]
  simp only [hv, if_true]

theorem chunksOf_singleton (size : Nat) (h : 0 < size) (x : String) :
    chunksOf size [x] = [[x]] := by
  unfold chunksOf rangeStep
  rw [show ([x] : List String).length = 1 from rfl]
  rw [show 1 + size - 1 = size by omega, Nat.div_self h]
  rw [show List.range 1 = [0] from rfl]
  simp only [List.map_cons, List.map_nil, Nat.zero_mul, List.drop_zero]
  rcases size with _ | s
  · omega
  · simp [List.take_succ_cons]

theorem fillna_empty (preS : List String) :
    ((preS.map (fun q => dictLookup [] q)).zip preS).map
      (fun q => match q.1 with
        | some v => some v
        | none => some q.2) = preS.map some := by
  induction preS with
  | nil => rfl
  | cons q rest ih =>
    simp only [List.map_cons, List.zip_cons_cons]
    rw [show (match (dictLookup [] q, q).1 with
      | some v => some v
      | none => some (dictLookup [] q, q).2) = some q from rfl]
    rw [ih]

/-- C10: the in-memory merge of batch results (lines 399-421) discards
any pair with a falsy key or value; consequently a value the remote
service normalized to the empty string never enters the final mapping
(and, with the merge re-reading the wrong path, neither does the
persisted copy), so under identity fallback its rows get the pre-cleaned
value, not the empty string the service returned.  Here the single
pre-cleaned value `p` is normalized to `""`, the pair `(p, "")` is
persisted, the final mapping is empty, and the output column is the
pre-cleaned column itself. -/
theorem spec_C10 (oracle : List String → Nat → PromptResult)
    (abbrevs : List (String × String)) (unwanted : List String)
    (t m f c : String) (chunkSize : Nat) (rows : List (Option String)) (p : String)
    (hcs : 0 < chunkSize)
    (hm0 : m ≠ "") (hmh : m.data.head? ≠ some '/') (hml : m.data.getLast? ≠ some '/')
    (hf0 : f ≠ "") (hfh : f.data.head? ≠ some '/') (hfl : f.data.getLast? ≠ some '/')
    (hu : (listUnique (rows.map (localCleanName abbrevs unwanted))).filter
      (fun u => u ≠ "") = [p])
    (hstrip : pyStrip p = p)
    (ho : oracle [p] 1 = PromptResult.val (JVal.jobj [("standardized_data", JVal.jarr
      [JVal.jobj [("raw_input", JVal.jstr p), ("output", JVal.jstr "")]])])) :
    (standardizeColumn oracle abbrevs unwanted t m f c chunkSize false rows emptyFs).fs
      (batchTempFile t m f c 0) = some (FileData.good [(p, "")]) ∧
    (standardizeColumn oracle abbrevs unwanted t m f c chunkSize false rows emptyFs).mapping = [] ∧
    (standardizeColumn oracle abbrevs unwanted t m f c chunkSize false rows emptyFs).output =
      some ((rows.map (localCleanName abbrevs unwanted)).map (fun q => some (pyStrip q))) := by
  have hne := mergeTempFile_ne_batchTempFile t m f c 0 hm0 hmh hml hf0 hfh hfl
  have hval : validateResponse 1 (JVal.jobj [("standardized_data", JVal.jarr
      [JVal.jobj [("raw_input", JVal.jstr p), ("output", JVal.jstr "")]])]) = true := rfl
  have hL : attemptLoop (oracle [p]) ([p].length) 3 0 none [] =
      ⟨some (JVal.jobj [("standardized_data", JVal.jarr
        [JVal.jobj [("raw_input", JVal.jstr p), ("output", JVal.jstr "")]])]), true, [], 1⟩ :=
    attemptLoop_first_valid (oracle [p]) ([p].length) 2 0 none []
      (JVal.jobj [("standardized_data", JVal.jarr
        [JVal.jobj [("raw_input", JVal.jstr p), ("output", JVal.jstr "")]])]) ho hval
  have hcore : processBatchCore oracle [p] false [] =
      ⟨CoreOutcome.done [(p, "")], [], 1⟩ := by
    have hpend : pendingOf [p] ([] : Dict) = [p] := rfl
    simp only [processBatchCore, hpend, List.isEmpty_cons, Bool.false_eq_true, if_false]
    rw [hL]
    show (⟨CoreOutcome.done [(pyStrip p, pyStrip "")], [], 1⟩ : CoreResult) =
      ⟨CoreOutcome.done [(p, "")], [], 1⟩
    rw [hstrip]
    rfl
  have hpb : processBatch oracle [p] t m f c 0 false emptyFs =
      ⟨writeFs emptyFs (batchTempFile t m f c 0) (FileData.good [(p, "")]),
        some [(p, "")], [], 1⟩ := by
    simp only [processBatch]
    rw [show loadCacheFile emptyFs (batchTempFile t m f c 0) = [] from rfl]
    rw [hcore]
  have hrb : runBatches oracle t m f c false [[p]] 0 emptyFs [] =
      (writeFs emptyFs (batchTempFile t m f c 0) (FileData.good [(p, "")]), []) := by
    simp only [runBatches]
    rw [hpb]
    show (writeFs emptyFs (batchTempFile t m f c 0) (FileData.good [(p, "")]),
      mergeBatchResult [] (some [(p, "")])) = _
    have hmb : mergeBatchResult [] (some [(p, "")]) = [] := by
      simp only [mergeBatchResult, List.isEmpty_cons, Bool.false_eq_true, if_false,
        List.foldl_cons, List.foldl_nil]
      rw [if_neg (fun hcon => hcon.2 rfl)]
    rw [hmb]
  have hmc : mergeCacheFiles
      (writeFs emptyFs (batchTempFile t m f c 0) (FileData.good [(p, "")])) t f c 1 [] = [] := by
    have hbeq : (mergeTempFile t f c 0 == batchTempFile t m f c 0) = false :=
      beq_eq_false_iff_ne.2 hne
    simp only [mergeCacheFiles, show List.range 1 = [0] from rfl, List.foldl_cons,
      List.foldl_nil]
    simp only [writeFs, hbeq, Bool.false_eq_true, if_false, emptyFs]
  simp only [standardizeColumn]
  rw [hu]
  simp only [List.isEmpty_cons, Bool.false_eq_true, if_false]
  rw [chunksOf_singleton chunkSize hcs p]
  rw [show ([[p]] : List (List String)).length = 1 from rfl]
  rw [hrb]
  rw [hmc]
  rw [show stripKeys ([] : Dict) = [] from rfl]
  refine ⟨?_, rfl, ?_⟩
  · simp [writeFs]
  · rw [fillna_empty]
    rw [List.map_map]
    rfl

/-- Witness for C10 at a concrete run: one row `"A"`, normalized by the
service to the empty string. -/
theorem spec_C10_witness :
    (standardizeColumn
      (fun req a => if req = ["A"] ∧ a = 1 then
        PromptResult.val (JVal.jobj [("standardized_data", JVal.jarr
          [JVal.jobj [("raw_input", JVal.jstr "A"), ("output", JVal.jstr "")]])])
        else PromptResult.exn)
      [] [] "t" "m" "f" "col" 10 false [some "A"] emptyFs).mapping = [] := by
  have h := spec_C10
    (fun req a => if req = ["A"] ∧ a = 1 then
      PromptResult.val (JVal.jobj [("standardized_data", JVal.jarr
        [JVal.jobj [("raw_input", JVal.jstr "A"), ("output", JVal.jstr "")]])])
      else PromptResult.exn)
    [] [] "t" "m" "f" "col" 10 [some "A"] "A"
    (by decide) (by decide) (by decide) (by decide) (by decide) (by decide) (by decide)
    (by decide) (by decide) rfl
  exact h.2.1

/-! ## C9: the pre-cleaner -/


theorem charLe_iff (a b : Char) : a ≤ b ↔ a.toNat ≤ b.toNat := Iff.rfl

theorem charToNat_ofNat {n : Nat} (h : n.isValidChar) : (Char.ofNat n).toNat = n := by
  rw [Char.ofNat, dif_pos h]
  rfl

theorem upperChar_upperChar (c : Char) : upperChar (upperChar c) = upperChar c := by
  by_cases h : ('a' ≤ c && c ≤ 'z') = true
  · have hc : upperChar c = Char.ofNat (c.toNat - 32) := by
      unfold upperChar; rw [if_pos h]
    rw [hc]
    rw [Bool.and_eq_true, decide_eq_true_eq, decide_eq_true_eq] at h
    obtain ⟨h1, h2⟩ := h
    rw [charLe_iff] at h1 h2
    have ha : ('a').toNat = 97 := by decide
    have hz : ('z').toNat = 122 := by decide
    rw [ha] at h1
    rw [hz] at h2
    have hv : (c.toNat - 32).isValidChar := Or.inl (by omega)
    have ht : (Char.ofNat (c.toNat - 32)).toNat = c.toNat - 32 := charToNat_ofNat hv
    have hcond : ¬(('a' ≤ Char.ofNat (c.toNat - 32) && Char.ofNat (c.toNat - 32) ≤ 'z') = true) := by
      rw [Bool.and_eq_true, decide_eq_true_eq, decide_eq_true_eq]
      rintro ⟨ha1, -⟩
      rw [charLe_iff, ht, ha] at ha1
      omega
    unfold upperChar
    rw [if_neg hcond]
  · have hc : upperChar c = c := by unfold upperChar; rw [if_neg h]
    rw [hc, hc]

theorem isWordChar_not_space (c : Char) (h : isWordChar c = true) :
    isSpaceChar c = false := by
  rcases Bool.eq_false_or_eq_true (isSpaceChar c) with hs | hs
  · simp only [isSpaceChar, Bool.or_eq_true, beq_iff_eq] at hs
    rcases hs with ((((h1 | h1) | h1) | h1) | h1) | h1 <;> subst h1 <;>
      exact absurd h (by decide)
  · exact hs

/-! ## Strip lemmas -/

theorem dropWhile_id_of_head (p : Char → Bool) (l : List Char)
    (h : ∀ c, l.head? = some c → p c = false) : l.dropWhile p = l := by
  cases l with
  | nil => rfl
  | cons a t =>
    rw [List.dropWhile_cons, if_neg]
    rw [h a rfl]
    exact Bool.false_ne_true

theorem stripChars_id (l : List Char)
    (hh : ∀ c, l.head? = some c → isSpaceChar c = false)
    (hl : ∀ c, l.getLast? = some c → isSpaceChar c = false) :
    stripChars l = l := by
  unfold stripChars
  rw [dropWhile_id_of_head _ l hh]
  rw [dropWhile_id_of_head _ l.reverse (fun c hc => hl c (by rwa [List.head?_reverse] at hc))]
  exact List.reverse_reverse l

theorem mem_of_mem_stripChars (l : List Char) (c : Char) (h : c ∈ stripChars l) :
    c ∈ l := by
  unfold stripChars at h
  rw [List.mem_reverse] at h
  have h2 := (List.dropWhile_sublist isSpaceChar).subset h
  rw [List.mem_reverse] at h2
  exact (List.dropWhile_sublist isSpaceChar).subset h2

/-! ## splitWords lemmas -/

theorem splitWords_words (l : List Char) :
    ∀ w ∈ splitWords l, w ≠ [] ∧ ∀ c ∈ w, isSpaceChar c = false ∧ c ∈ l := by
  induction l with
  | nil => intro w hw; exact absurd hw (List.not_mem_nil w)
  | cons a t ih =>
    intro w hw
    by_cases ha : isSpaceChar a = true
    · rw [show splitWords (a :: t) =
          (if isSpaceChar a = true then splitWords t
           else match splitWords t, t.head? with
             | w :: ws, some d =>
               if isSpaceChar d = true then [a] :: w :: ws else (a :: w) :: ws
             | _, _ => [[a]]) from rfl, if_pos ha] at hw
      obtain ⟨h1, h2⟩ := ih w hw
      exact ⟨h1, fun c hc => ⟨(h2 c hc).1, List.mem_cons_of_mem a (h2 c hc).2⟩⟩
    · have ha' : isSpaceChar a = false := by
        rcases Bool.eq_false_or_eq_true (isSpaceChar a) with hs | hs
        · exact absurd hs ha
        · exact hs
      rw [show splitWords (a :: t) =
          (if isSpaceChar a = true then splitWords t
           else match splitWords t, t.head? with
             | w :: ws, some d =>
               if isSpaceChar d = true then [a] :: w :: ws else (a :: w) :: ws
             | _, _ => [[a]]) from rfl, if_neg ha] at hw
      cases hst : splitWords t with
      | nil =>
        rw [hst] at hw
        cases hh : t.head? with
        | none =>
          rw [hh] at hw
          rw [show (match ([] : List (List Char)), (none : Option Char) with
            | w :: ws, some d =>
              if isSpaceChar d = true then [a] :: w :: ws else (a :: w) :: ws
            | _, _ => [[a]]) = [[a]] from rfl] at hw
          rw [List.mem_singleton] at hw
          subst hw
          refine ⟨by simp, ?_⟩
          intro c hc
          rw [List.mem_singleton] at hc
          rw [hc]
          exact ⟨ha', List.mem_cons_self a t⟩
        | some d =>
          rw [hh] at hw
          rw [show (match ([] : List (List Char)), some d with
            | w :: ws, some d =>
              if isSpaceChar d = true then [a] :: w :: ws else (a :: w) :: ws
            | _, _ => [[a]]) = [[a]] from rfl] at hw
          rw [List.mem_singleton] at hw
          subst hw
          refine ⟨by simp, ?_⟩
          intro c hc
          rw [List.mem_singleton] at hc
          rw [hc]
          exact ⟨ha', List.mem_cons_self a t⟩
      | cons w0 ws =>
        rw [hst] at hw
        cases hh : t.head? with
        | none =>
          rw [hh] at hw
          rw [show (match w0 :: ws, (none : Option Char) with
            | w :: ws, some d =>
              if isSpaceChar d = true then [a] :: w :: ws else (a :: w) :: ws
            | _, _ => [[a]]) = [[a]] from rfl] at hw
          rw [List.mem_singleton] at hw
          subst hw
          refine ⟨by simp, ?_⟩
          intro c hc
          rw [List.mem_singleton] at hc
          rw [hc]
          exact ⟨ha', List.mem_cons_self a t⟩
        | some d =>
          rw [hh] at hw
          rw [show (match w0 :: ws, some d with
            | w :: ws, some d =>
              if isSpaceChar d = true then [a] :: w :: ws else (a :: w) :: ws
            | _, _ => [[a]]) =
            (if isSpaceChar d = true then [a] :: w0 :: ws else (a :: w0) :: ws) from rfl] at hw
          by_cases hd : isSpaceChar d = true
          · rw [if_pos hd] at hw
            rcases List.mem_cons.mp hw with rfl | hw2
            · refine ⟨by simp, ?_⟩
              intro c hc
              rw [List.mem_singleton] at hc
              rw [hc]
              exact ⟨ha', List.mem_cons_self a t⟩
            · have hw3 : w ∈ splitWords t := by rw [hst]; exact hw2
              obtain ⟨h1, h2⟩ := ih w hw3
              exact ⟨h1, fun c hc => ⟨(h2 c hc).1, List.mem_cons_of_mem a (h2 c hc).2⟩⟩
          · rw [if_neg hd] at hw
            rcases List.mem_cons.mp hw with rfl | hw2
            · have hmem : w0 ∈ splitWords t := by rw [hst]; exact List.mem_cons_self w0 ws
              obtain ⟨h1, h2⟩ := ih w0 hmem
              refine ⟨by simp, ?_⟩
              intro c hc
              rcases List.mem_cons.mp hc with rfl | hc2
              · exact ⟨ha', List.mem_cons_self c t⟩
              · exact ⟨(h2 c hc2).1, List.mem_cons_of_mem a (h2 c hc2).2⟩
            · have hw3 : w ∈ splitWords t := by
                rw [hst]; exact List.mem_cons_of_mem w0 hw2
              obtain ⟨h1, h2⟩ := ih w hw3
              exact ⟨h1, fun c hc => ⟨(h2 c hc).1, List.mem_cons_of_mem a (h2 c hc).2⟩⟩

theorem splitWords_single (w : List Char) (h1 : w ≠ [])
    (h2 : ∀ c ∈ w, isSpaceChar c = false) : splitWords w = [w] := by
  induction w with
  | nil => exact absurd rfl h1
  | cons a t ih =>
    have ha' : ¬(isSpaceChar a = true) := by
      rw [h2 a (List.mem_cons_self a t)]; exact Bool.false_ne_true
    cases t with
    | nil =>
      show (if isSpaceChar a = true then splitWords []
            else match splitWords [], ([] : List Char).head? with
              | w :: ws, some d =>
                if isSpaceChar d = true then [a] :: w :: ws else (a :: w) :: ws
              | _, _ => [[a]]) = [[a]]
      rw [if_neg ha']
      rfl
    | cons d t' =>
      have hd' : ¬(isSpaceChar d = true) := by
        rw [h2 d (List.mem_cons_of_mem a (List.mem_cons_self d t'))]
        exact Bool.false_ne_true
      have ht : splitWords (d :: t') = [d :: t'] :=
        ih (by simp) (fun c hc => h2 c (List.mem_cons_of_mem a hc))
      show (if isSpaceChar a = true then splitWords (d :: t')
            else match splitWords (d :: t'), (d :: t').head? with
              | w :: ws, some d0 =>
                if isSpaceChar d0 = true then [a] :: w :: ws else (a :: w) :: ws
              | _, _ => [[a]]) = [a :: d :: t']
      rw [if_neg ha', ht]
      show (if isSpaceChar d = true then [a] :: (d :: t') :: []
            else (a :: d :: t') :: []) = [a :: d :: t']
      rw [if_neg hd']

theorem splitWords_append (w r : List Char) (h1 : w ≠ [])
    (h2 : ∀ c ∈ w, isSpaceChar c = false) :
    splitWords (w ++ ' ' :: r) = w :: splitWords r := by
  induction w with
  | nil => exact absurd rfl h1
  | cons a t ih =>
    have ha' : ¬(isSpaceChar a = true) := by
      rw [h2 a (List.mem_cons_self a t)]; exact Bool.false_ne_true
    cases t with
    | nil =>
      show (if isSpaceChar a = true then splitWords (' ' :: r)
            else match splitWords (' ' :: r), (' ' :: r).head? with
              | w :: ws, some d0 =>
                if isSpaceChar d0 = true then [a] :: w :: ws else (a :: w) :: ws
              | _, _ => [[a]]) = [a] :: splitWords r
      rw [if_neg ha']
      have hsp : splitWords (' ' :: r) = splitWords r := by
        show (if isSpaceChar ' ' = true then splitWords r
              else match splitWords r, r.head? with
                | w :: ws, some d0 =>
                  if isSpaceChar d0 = true then [' '] :: w :: ws else (' ' :: w) :: ws
                | _, _ => [[' ']]) = splitWords r
        rw [if_pos (by decide)]
      rw [hsp]
      cases hr : splitWords r with
      | nil => rfl
      | cons w0 ws =>
        show (if isSpaceChar ' ' = true then [a] :: w0 :: ws else (a :: w0) :: ws) =
          [a] :: w0 :: ws
        rw [if_pos (by decide)]
    | cons d t' =>
      have hd' : ¬(isSpaceChar d = true) := by
        rw [h2 d (List.mem_cons_of_mem a (List.mem_cons_self d t'))]
        exact Bool.false_ne_true
      have ih' : splitWords ((d :: t') ++ ' ' :: r) = (d :: t') :: splitWords r :=
        ih (by simp) (fun c hc => h2 c (List.mem_cons_of_mem a hc))
      show (if isSpaceChar a = true then splitWords ((d :: t') ++ ' ' :: r)
            else match splitWords ((d :: t') ++ ' ' :: r), ((d :: t') ++ ' ' :: r).head? with
              | w :: ws, some d0 =>
                if isSpaceChar d0 = true then [a] :: w :: ws else (a :: w) :: ws
              | _, _ => [[a]]) = (a :: d :: t') :: splitWords r
      rw [if_neg ha', ih']
      show (if isSpaceChar d = true then [a] :: (d :: t') :: splitWords r
            else (a :: d :: t') :: splitWords r) = (a :: d :: t') :: splitWords r
      rw [if_neg hd']

theorem splitWords_joinWords (ws : List (List Char))
    (h : ∀ w ∈ ws, w ≠ [] ∧ ∀ c ∈ w, isSpaceChar c = false) :
    splitWords (joinWords ws) = ws := by
  induction ws with
  | nil => rfl
  | cons w ws ih =>
    cases ws with
    | nil =>
      show splitWords w = [w]
      exact splitWords_single w (h w (by simp)).1 (h w (by simp)).2
    | cons w2 ws' =>
      show splitWords (w ++ ' ' :: joinWords (w2 :: ws')) = w :: w2 :: ws'
      rw [splitWords_append w _ (h w (by simp)).1 (h w (by simp)).2]
      rw [ih (fun u hu => h u (List.mem_cons_of_mem w hu))]

theorem joinWords_ne_nil (ws : List (List Char)) (h0 : ws ≠ [])
    (h : ∀ w ∈ ws, w ≠ []) : joinWords ws ≠ [] := by
  cases ws with
  | nil => exact absurd rfl h0
  | cons w ws' =>
    cases ws' with
    | nil => exact h w (by simp)
    | cons w2 ws'' =>
      show w ++ ' ' :: joinWords (w2 :: ws'') ≠ []
      intro hc
      rcases List.append_eq_nil.mp hc with ⟨-, h2⟩
      exact List.noConfusion h2

theorem joinWords_head (w : List Char) (ws : List (List Char)) (hw : w ≠ []) :
    (joinWords (w :: ws)).head? = w.head? := by
  cases ws with
  | nil => rfl
  | cons w2 ws' =>
    show (w ++ ' ' :: joinWords (w2 :: ws')).head? = w.head?
    cases w with
    | nil => exact absurd rfl hw
    | cons a t => rfl

theorem joinWords_getLast (ws : List (List Char)) (w : List Char)
    (hlast : ws.getLast? = some w) (h : ∀ u ∈ ws, u ≠ []) :
    (joinWords ws).getLast? = w.getLast? := by
  induction ws with
  | nil => exact absurd hlast (by simp)
  | cons u ws' ih =>
    cases ws' with
    | nil =>
      have hu : u = w := by simpa using hlast
      subst hu
      rfl
    | cons w2 ws'' =>
      have hlast' : (w2 :: ws'').getLast? = some w := by
        rwa [List.getLast?_cons_cons] at hlast
      have hJ : joinWords (w2 :: ws'') ≠ [] :=
        joinWords_ne_nil _ (by simp) (fun v hv => h v (List.mem_cons_of_mem u hv))
      show (u ++ ' ' :: joinWords (w2 :: ws'')).getLast? = w.getLast?
      rw [List.getLast?_append]
      have h2 : (' ' :: joinWords (w2 :: ws'')).getLast? =
          (joinWords (w2 :: ws'')).getLast? := by
        cases hj : joinWords (w2 :: ws'') with
        | nil => exact absurd hj hJ
        | cons z zs => rw [List.getLast?_cons_cons]
      rw [h2, ih hlast' (fun v hv => h v (List.mem_cons_of_mem u hv))]
      have hwne : w ≠ [] := h w (List.mem_of_getLast?_eq_some hlast)
      cases hwl : w.getLast? with
      | none =>
        have := List.getLast?_eq_getLast w hwne
        rw [hwl] at this
        exact Option.noConfusion this
      | some z => rfl

theorem mem_joinWords (ws : List (List Char)) (c : Char) (h : c ∈ joinWords ws) :
    (∃ w, w ∈ ws ∧ c ∈ w) ∨ c = ' ' := by
  induction ws with
  | nil => exact absurd h (List.not_mem_nil c)
  | cons w ws' ih =>
    cases ws' with
    | nil => exact Or.inl ⟨w, by simp, h⟩
    | cons w2 ws'' =>
      rw [show joinWords (w :: w2 :: ws'') = w ++ ' ' :: joinWords (w2 :: ws'') from rfl] at h
      rcases List.mem_append.mp h with h1 | h2
      · exact Or.inl ⟨w, by simp, h1⟩
      · rcases List.mem_cons.mp h2 with h3 | h3
        · exact Or.inr h3
        · rcases ih h3 with ⟨u, hu, hc⟩ | hsp
          · exact Or.inl ⟨u, List.mem_cons_of_mem w hu, hc⟩
          · exact Or.inr hsp

theorem joinWords_append (ws1 ws2 : List (List Char)) (h1 : ws1 ≠ []) (h2 : ws2 ≠ []) :
    joinWords (ws1 ++ ws2) = joinWords ws1 ++ ' ' :: joinWords ws2 := by
  induction ws1 with
  | nil => exact absurd rfl h1
  | cons w ws1' ih =>
    cases ws1' with
    | nil =>
      cases ws2 with
      | nil => exact absurd rfl h2
      | cons u us =>
        show joinWords (w :: u :: us) = w ++ ' ' :: joinWords (u :: us)
        rfl
    | cons v vs =>
      have ihh := ih (by simp)
      show joinWords (w :: ((v :: vs) ++ ws2)) =
        (w ++ ' ' :: joinWords (v :: vs)) ++ ' ' :: joinWords ws2
      rw [show joinWords (w :: ((v :: vs) ++ ws2)) =
        w ++ ' ' :: joinWords ((v :: vs) ++ ws2) from rfl]
      rw [ihh]
      simp [List.append_assoc, List.cons_append]

theorem list_map_id {A : Type} (f : A → A) :
    ∀ l : List A, (∀ x ∈ l, f x = x) → l.map f = l
  | [], _ => rfl
  | x :: t, h => by
    rw [List.map_cons, h x (List.mem_cons_self x t),
      list_map_id f t (fun y hy => h y (List.mem_cons_of_mem x hy))]

theorem dictLookup_mem (d : Dict) (k v : String) (h : dictLookup d k = some v) :
    ∃ p, p ∈ d ∧ p.2 = v := by
  induction d with
  | nil => exact absurd h (by simp [dictLookup])
  | cons q rest ih =>
    rw [dictLookup_cons] at h
    by_cases hq : q.1 = k
    · rw [if_pos hq] at h
      exact ⟨q, List.mem_cons_self q rest, Option.some.inj h⟩
    · rw [if_neg hq] at h
      obtain ⟨p, hp, he⟩ := ih h
      exact ⟨p, List.mem_cons_of_mem q hp, he⟩

theorem collapseGo_append (t : List Char) :
    ∀ (a : Char) (b : Bool) (rest : List Char), isSpaceChar a = false →
      (∀ c ∈ t, isSpaceChar c = false) →
      collapseGo b ((a :: t) ++ rest) = (a :: t) ++ collapseGo false rest := by
  induction t with
  | nil =>
    intro a b rest ha _
    show (if isSpaceChar a = true then
            (if b = true then collapseGo true rest else ' ' :: collapseGo true rest)
          else a :: collapseGo false rest) = a :: collapseGo false rest
    rw [if_neg (by rw [ha]; exact Bool.false_ne_true)]
  | cons d t' ih =>
    intro a b rest ha hall
    show (if isSpaceChar a = true then
            (if b = true then collapseGo true ((d :: t') ++ rest)
             else ' ' :: collapseGo true ((d :: t') ++ rest))
          else a :: collapseGo false ((d :: t') ++ rest)) =
      a :: ((d :: t') ++ collapseGo false rest)
    rw [if_neg (by rw [ha]; exact Bool.false_ne_true)]
    rw [ih d false rest (hall d (List.mem_cons_self d t'))
      (fun c hc => hall c (List.mem_cons_of_mem d hc))]

theorem collapseGo_head (l : List Char)
    (h : ∀ c, l.head? = some c → isSpaceChar c = false) :
    collapseGo true l = collapseGo false l := by
  cases l with
  | nil => rfl
  | cons a t =>
    have ha' : ¬(isSpaceChar a = true) := by
      rw [h a rfl]; exact Bool.false_ne_true
    show (if isSpaceChar a = true then
            (if true = true then collapseGo true t else ' ' :: collapseGo true t)
          else a :: collapseGo false t) =
      (if isSpaceChar a = true then
            (if false = true then collapseGo true t else ' ' :: collapseGo true t)
          else a :: collapseGo false t)
    rw [if_neg ha', if_neg ha']

theorem collapseSpaces_joinWords (ws : List (List Char))
    (h : ∀ w ∈ ws, w ≠ [] ∧ ∀ c ∈ w, isSpaceChar c = false) :
    collapseSpaces (joinWords ws) = joinWords ws := by
  unfold collapseSpaces
  induction ws with
  | nil => rfl
  | cons w ws' ih =>
    obtain ⟨hne, hsf⟩ := h w (List.mem_cons_self w ws')
    obtain ⟨a, t, rfl⟩ : ∃ a t, w = a :: t := by
      cases w with
      | nil => exact absurd rfl hne
      | cons a t => exact ⟨a, t, rfl⟩
    cases ws' with
    | nil =>
      show collapseGo false (a :: t) = a :: t
      have hkey := collapseGo_append t a false []
        (hsf a (List.mem_cons_self a t))
        (fun c hc => hsf c (List.mem_cons_of_mem a hc))
      rw [show collapseGo false [] = [] from rfl] at hkey
      rw [List.append_nil] at hkey
      exact hkey
    | cons w2 ws'' =>
      show collapseGo false ((a :: t) ++ ' ' :: joinWords (w2 :: ws'')) =
        (a :: t) ++ ' ' :: joinWords (w2 :: ws'')
      rw [collapseGo_append t a false _
        (hsf a (List.mem_cons_self a t))
        (fun c hc => hsf c (List.mem_cons_of_mem a hc))]
      congr 1
      have h1 : collapseGo false (' ' :: joinWords (w2 :: ws'')) =
          ' ' :: collapseGo true (joinWords (w2 :: ws'')) := by
        show (if isSpaceChar ' ' = true then
                (if false = true then collapseGo true (joinWords (w2 :: ws''))
                 else ' ' :: collapseGo true (joinWords (w2 :: ws'')))
              else ' ' :: collapseGo false (joinWords (w2 :: ws''))) =
          ' ' :: collapseGo true (joinWords (w2 :: ws''))
        rw [if_pos (by decide), if_neg (by decide)]
      rw [h1]
      have hw2 := h w2 (List.mem_cons_of_mem _ (List.mem_cons_self w2 ws''))
      have h2 : collapseGo true (joinWords (w2 :: ws'')) =
          collapseGo false (joinWords (w2 :: ws'')) := by
        apply collapseGo_head
        intro c hc
        rw [joinWords_head w2 ws'' hw2.1] at hc
        exact hw2.2 c (List.mem_of_mem_head? hc)
      rw [h2]
      rw [ih (fun u hu => h u (List.mem_cons_of_mem _ hu))]


theorem mem_of_mem_collapseGo (l : List Char) :
    ∀ (b : Bool) (c : Char), c ∈ collapseGo b l → c ∈ l ∨ c = ' ' := by
  induction l with
  | nil => intro b c h; exact absurd h (List.not_mem_nil c)
  | cons a t ih =>
    intro b c h
    by_cases ha : isSpaceChar a = true
    · rw [show collapseGo b (a :: t) =
          (if isSpaceChar a = true then
            (if b = true then collapseGo true t else ' ' :: collapseGo true t)
          else a :: collapseGo false t) from rfl, if_pos ha] at h
      cases b with
      | true =>
        rw [if_pos rfl] at h
        rcases ih true c h with h1 | h2
        · exact Or.inl (List.mem_cons_of_mem a h1)
        · exact Or.inr h2
      | false =>
        rw [if_neg (by exact Bool.false_ne_true)] at h
        rcases List.mem_cons.mp h with h3 | h3
        · exact Or.inr h3
        · rcases ih true c h3 with h1 | h2
          · exact Or.inl (List.mem_cons_of_mem a h1)
          · exact Or.inr h2
    · rw [show collapseGo b (a :: t) =
          (if isSpaceChar a = true then
            (if b = true then collapseGo true t else ' ' :: collapseGo true t)
          else a :: collapseGo false t) from rfl, if_neg ha] at h
      rcases List.mem_cons.mp h with h3 | h3
      · exact Or.inl (by rw [h3]; exact List.mem_cons_self a t)
      · rcases ih false c h3 with h1 | h2
        · exact Or.inl (List.mem_cons_of_mem a h1)
        · exact Or.inr h2

theorem stripChars_joinWords (ws : List (List Char))
    (h : ∀ w ∈ ws, w ≠ [] ∧ ∀ c ∈ w, isSpaceChar c = false) :
    stripChars (joinWords ws) = joinWords ws := by
  cases ws with
  | nil => rfl
  | cons w ws' =>
    have hw := h w (List.mem_cons_self w ws')
    apply stripChars_id
    · intro c hc
      rw [joinWords_head w ws' hw.1] at hc
      exact hw.2 c (List.mem_of_mem_head? hc)
    · intro c hc
      have hne : (w :: ws') ≠ ([] : List (List Char)) := by simp
      have hlast := List.getLast?_eq_getLast (w :: ws') hne
      rw [joinWords_getLast (w :: ws') ((w :: ws').getLast hne) hlast
        (fun u hu => (h u hu).1)] at hc
      exact (h _ (List.getLast_mem hne)).2 c (List.mem_of_getLast?_eq_some hc)

theorem joinWords_flatten (ds : List (List Char))
    (h : ∀ d ∈ ds, d = joinWords (splitWords d) ∧ splitWords d ≠ []) :
    joinWords ds = joinWords ((ds.map splitWords).flatten) := by
  induction ds with
  | nil => rfl
  | cons d ds' ih =>
    obtain ⟨hd, hne⟩ := h d (List.mem_cons_self d ds')
    cases ds' with
    | nil =>
      show joinWords [d] = joinWords (([d].map splitWords).flatten)
      rw [show ([d].map splitWords).flatten = splitWords d ++ [] from rfl, List.append_nil]
      exact hd
    | cons e es =>
      have ihh := ih (fun x hx => h x (List.mem_cons_of_mem d hx))
      have hfl : (((e :: es).map splitWords)).flatten ≠ [] := by
        intro hcnil
        exact (h e (List.mem_cons_of_mem d (List.mem_cons_self e es))).2
          (List.flatten_eq_nil_iff.mp hcnil (splitWords e)
            (List.mem_map_of_mem splitWords (List.mem_cons_self e es)))
      rw [show (((d :: e :: es).map splitWords)).flatten =
        splitWords d ++ (((e :: es).map splitWords)).flatten from rfl]
      rw [joinWords_append _ _ hne hfl]
      rw [← hd, ← ihh]
      rfl

theorem punct_upper_chars (l : List Char) (c : Char)
    (hc : c ∈ stripChars (collapseSpaces ((l.map upperChar).map
      (fun c => if isWordChar c || isSpaceChar c then c else ' '))))
    (hns : isSpaceChar c = false) : isWordChar c = true ∧ upperChar c = c := by
  have h1 := mem_of_mem_stripChars _ c hc
  unfold collapseSpaces at h1
  rcases mem_of_mem_collapseGo _ false c h1 with h2 | h2
  · rcases List.mem_map.mp h2 with ⟨u, hu, he⟩
    rcases List.mem_map.mp hu with ⟨c0, hc0, he0⟩
    have he' : (if isWordChar u || isSpaceChar u then u else ' ') = c := he
    by_cases hw : (isWordChar u || isSpaceChar u) = true
    · rw [if_pos hw] at he'
      rw [Bool.or_eq_true] at hw
      rcases hw with hww | hsp
      · rw [← he']
        exact ⟨hww, by rw [← he0]; exact upperChar_upperChar c0⟩
      · rw [he'] at hsp
        exact absurd hsp (by rw [hns]; exact Bool.false_ne_true)
    · rw [if_neg hw] at he'
      rw [← he'] at hns
      exact absurd hns (by decide)
  · rw [h2] at hns
    exact absurd hns (by decide)

theorem token_clean (abbrevs : List (String × String)) (unwanted : List String)
    (H : goodAbbrevs abbrevs unwanted) (l4 : List Char)
    (hchars : ∀ c ∈ l4, isSpaceChar c = false → isWordChar c = true ∧ upperChar c = c)
    (t : String)
    (ht : t ∈ ((splitWords l4).map (fun w => String.mk w)).filter
      (fun t => !unwanted.contains t)) :
    ((dictLookup abbrevs t).getD t).data =
        joinWords (splitWords ((dictLookup abbrevs t).getD t).data) ∧
      splitWords ((dictLookup abbrevs t).getD t).data ≠ [] ∧
      ∀ w ∈ splitWords ((dictLookup abbrevs t).getD t).data, wordOK abbrevs unwanted w := by
  rcases List.mem_filter.mp ht with ⟨htm, htf⟩
  have htf' : (!unwanted.contains t) = true := htf
  have hcontains : unwanted.contains t = false := by
    rcases Bool.eq_false_or_eq_true (unwanted.contains t) with hx | hx
    · rw [hx] at htf'; exact absurd htf' (by decide)
    · exact hx
  rcases List.mem_map.mp htm with ⟨w0, hw0, hmk⟩
  have hmk' : String.mk w0 = t := hmk
  obtain ⟨hne0, hch0⟩ := splitWords_words l4 w0 hw0
  cases hlk : dictLookup abbrevs t with
  | none =>
    rw [Option.getD_none, ← hmk']
    have hsingle : splitWords (String.mk w0).data = [w0] :=
      splitWords_single w0 hne0 (fun c hc => (hch0 c hc).1)
    rw [hsingle]
    refine ⟨rfl, by simp, ?_⟩
    intro w hw
    rw [List.mem_singleton] at hw
    rw [hw]
    refine ⟨hne0, ?_, ?_, ?_⟩
    · intro ch hch
      exact hchars ch (hch0 ch hch).2 (hch0 ch hch).1
    · rw [hmk']; exact hcontains
    · rw [hmk']; exact hlk
  | some v =>
    rw [Option.getD_some]
    obtain ⟨p, hp, hpv⟩ := dictLookup_mem abbrevs t v hlk
    have hg := H p hp
    rw [hpv] at hg
    exact ⟨hg.2.1, hg.1, hg.2.2⟩

theorem tokens_shape (abbrevs : List (String × String)) (unwanted : List String)
    (H : goodAbbrevs abbrevs unwanted) (l4 : List Char)
    (hchars : ∀ c ∈ l4, isSpaceChar c = false → isWordChar c = true ∧ upperChar c = c) :
    ∃ ws,
      joinWords (((((splitWords l4).map (fun w => String.mk w)).filter
          (fun t => !unwanted.contains t)).map
            (fun t => (dictLookup abbrevs t).getD t)).map (fun t => t.data)) =
        joinWords ws ∧
      ∀ w ∈ ws, wordOK abbrevs unwanted w := by
  refine ⟨((((((splitWords l4).map (fun w => String.mk w)).filter
      (fun t => !unwanted.contains t)).map
        (fun t => (dictLookup abbrevs t).getD t)).map (fun t => t.data)).map
          splitWords).flatten, ?_, ?_⟩
  · apply joinWords_flatten
    intro d hd
    rcases List.mem_map.mp hd with ⟨t3, ht3, hdd⟩
    rcases List.mem_map.mp ht3 with ⟨t, ht, he⟩
    obtain ⟨hj, hne, -⟩ := token_clean abbrevs unwanted H l4 hchars t ht
    have hdd' : t3.data = d := hdd
    have he' : (dictLookup abbrevs t).getD t = t3 := he
    rw [← hdd', ← he']
    exact ⟨hj, hne⟩
  · intro w hw
    rcases List.mem_flatten.mp hw with ⟨piece, hpiece, hwp⟩
    rcases List.mem_map.mp hpiece with ⟨d, hd, hds⟩
    rcases List.mem_map.mp hd with ⟨t3, ht3, hdd⟩
    rcases List.mem_map.mp ht3 with ⟨t, ht, he⟩
    obtain ⟨-, -, hws⟩ := token_clean abbrevs unwanted H l4 hchars t ht
    have hdd' : t3.data = d := hdd
    have he' : (dictLookup abbrevs t).getD t = t3 := he
    apply hws
    rw [he', hdd', hds]
    exact hwp

theorem localCleanName_shape (abbrevs : List (String × String)) (unwanted : List String)
    (H : goodAbbrevs abbrevs unwanted) (x : Option String) :
    ∃ ws, (localCleanName abbrevs unwanted x).data = joinWords ws ∧
      ∀ w ∈ ws, wordOK abbrevs unwanted w := by
  cases x with
  | none => exact ⟨[], rfl, fun w hw => absurd hw (List.not_mem_nil w)⟩
  | some s =>
    obtain ⟨ws, hj, hws⟩ := tokens_shape abbrevs unwanted H
      (stripChars (collapseSpaces (((stripChars s.data).map upperChar).map
        (fun c => if isWordChar c || isSpaceChar c then c else ' '))))
      (fun c hc hns => punct_upper_chars (stripChars s.data) c hc hns)
    exact ⟨ws, hj, hws⟩

theorem localCleanName_fixed (abbrevs : List (String × String)) (unwanted : List String)
    (ws : List (List Char)) (hws : ∀ w ∈ ws, wordOK abbrevs unwanted w) :
    localCleanName abbrevs unwanted (some (String.mk (joinWords ws))) =
      String.mk (joinWords ws) := by
  have hgood : ∀ w ∈ ws, w ≠ [] ∧ ∀ c ∈ w, isSpaceChar c = false := by
    intro w hw
    exact ⟨(hws w hw).1, fun c hc => isWordChar_not_space c ((hws w hw).2.1 c hc).1⟩
  have hchar : ∀ c ∈ joinWords ws, isWordChar c = true ∧ upperChar c = c ∨ c = ' ' := by
    intro c hc
    rcases mem_joinWords ws c hc with ⟨w, hw, hcw⟩ | hsp
    · exact Or.inl ((hws w hw).2.1 c hcw)
    · exact Or.inr hsp
  have hstrip : stripChars (joinWords ws) = joinWords ws := stripChars_joinWords ws hgood
  have hupper : (joinWords ws).map upperChar = joinWords ws := by
    apply list_map_id
    intro c hc
    rcases hchar c hc with ⟨-, h2⟩ | hsp
    · exact h2
    · rw [hsp]; decide
  have hpunct : (joinWords ws).map
      (fun c => if isWordChar c || isSpaceChar c then c else ' ') = joinWords ws := by
    apply list_map_id
    intro c hc
    show (if isWordChar c || isSpaceChar c then c else ' ') = c
    rcases hchar c hc with ⟨h1, -⟩ | hsp
    · rw [if_pos (by rw [Bool.or_eq_true]; exact Or.inl h1)]
    · rw [hsp]; decide
  have hcollapse : collapseSpaces (joinWords ws) = joinWords ws :=
    collapseSpaces_joinWords ws hgood
  have hsplit : splitWords (joinWords ws) = ws := splitWords_joinWords ws hgood
  have hfilter : (ws.map (fun w => String.mk w)).filter
      (fun t => !unwanted.contains t) = ws.map (fun w => String.mk w) := by
    rw [List.filter_eq_self]
    intro t htm
    rcases List.mem_map.mp htm with ⟨w, hw, hmk⟩
    have hmk' : String.mk w = t := hmk
    show (!unwanted.contains t) = true
    rw [← hmk', (hws w hw).2.2.1]
    rfl
  have hexpand : (ws.map (fun w => String.mk w)).map
      (fun t => (dictLookup abbrevs t).getD t) = ws.map (fun w => String.mk w) := by
    apply list_map_id
    intro t htm
    rcases List.mem_map.mp htm with ⟨w, hw, hmk⟩
    have hmk' : String.mk w = t := hmk
    show (dictLookup abbrevs t).getD t = t
    rw [← hmk', (hws w hw).2.2.2]
    rfl
  have hdataF : (ws.map (fun w => String.mk w)).map (fun t => t.data) = ws := by
    rw [List.map_map]
    apply list_map_id
    intro w hw
    rfl
  simp only [localCleanName]
  rw [hstrip, hupper, hpunct, hcollapse, hstrip, hsplit, hfilter, hexpand, hdataF]

/-- C9: `local_clean_name` is total and deterministic (it is a function;
in particular it never fails), it returns the empty string on null/missing
input, and it is idempotent: cleaning an already-cleaned value returns it
unchanged.  Idempotence holds provided the configured tables - modelled
from the spec, `src/config/abbreviations.py` being absent from the
sources - have every abbreviation expansion already in cleaned form
(`goodAbbrevs`). -/
theorem spec_C9 (abbrevs : List (String × String)) (unwanted : List String)
    (H : goodAbbrevs abbrevs unwanted) :
    localCleanName abbrevs unwanted none = "" ∧
    ∀ x : Option String,
      localCleanName abbrevs unwanted (some (localCleanName abbrevs unwanted x)) =
        localCleanName abbrevs unwanted x := by
  refine ⟨rfl, fun x => ?_⟩
  obtain ⟨ws, hdata, hws⟩ := localCleanName_shape abbrevs unwanted H x
  have hy : localCleanName abbrevs unwanted x = String.mk (joinWords ws) :=
    congrArg String.mk hdata
  rw [hy]
  exact localCleanName_fixed abbrevs unwanted ws hws

/-- Witness for C9 at concrete tables and the input `" the pvt. acme co "`
(which exercises stripping, upper-casing, punctuation, the stop list and
an abbreviation expansion). -/
theorem spec_C9_witness :
    goodAbbrevs [("PVT", "PRIVATE"), ("LTD", "LIMITED")] ["THE"] ∧
    localCleanName [("PVT", "PRIVATE"), ("LTD", "LIMITED")] ["THE"] none = "" ∧
    localCleanName [("PVT", "PRIVATE"), ("LTD", "LIMITED")] ["THE"]
        (some (localCleanName [("PVT", "PRIVATE"), ("LTD", "LIMITED")] ["THE"]
          (some " the pvt. acme co "))) =
      localCleanName [("PVT", "PRIVATE"), ("LTD", "LIMITED")] ["THE"]
        (some " the pvt. acme co ") :=
  ⟨by decide,
   (spec_C9 [("PVT", "PRIVATE"), ("LTD", "LIMITED")] ["THE"] (by decide)).1,
   (spec_C9 [("PVT", "PRIVATE"), ("LTD", "LIMITED")] ["THE"] (by decide)).2
     (some " the pvt. acme co ")⟩


/-! ## C5: determinism across a second run -/

theorem digitChar_decode : ∀ m : Nat, m < 10 → (Nat.digitChar m).toNat - 48 = m := by
  decide

theorem decSeed (ys : List Char) : ∀ a : Nat,
    List.foldl (fun x c => x * 10 + (c.toNat - 48)) a ys =
      a * 10 ^ ys.length + List.foldl (fun x c => x * 10 + (c.toNat - 48)) 0 ys := by
  induction ys with
  | nil => intro a; simp
  | cons c t ih =>
    intro a
    rw [List.foldl_cons, List.foldl_cons, ih (a * 10 + (c.toNat - 48)),
      ih (0 * 10 + (c.toNat - 48)), List.length_cons, pow_succ]
    ring

theorem dec_toDigitsCore : ∀ (fuel n : Nat) (ds : List Char), n < fuel →
    List.foldl (fun x c => x * 10 + (c.toNat - 48)) 0 (Nat.toDigitsCore 10 fuel n ds) =
      n * 10 ^ ds.length + List.foldl (fun x c => x * 10 + (c.toNat - 48)) 0 ds := by
  intro fuel
  induction fuel with
  | zero => intro n ds h; omega
  | succ fuel ih =>
    intro n ds h
    show List.foldl (fun x c => x * 10 + (c.toNat - 48)) 0
        (if n / 10 = 0 then Nat.digitChar (n % 10) :: ds
         else Nat.toDigitsCore 10 fuel (n / 10) (Nat.digitChar (n % 10) :: ds)) = _
    by_cases h0 : n / 10 = 0
    · rw [if_pos h0, List.foldl_cons, decSeed]
      rw [digitChar_decode (n % 10) (Nat.mod_lt n (by omega))]
      have hn : n % 10 = n := by omega
      rw [hn, Nat.zero_mul, Nat.zero_add]
    · rw [if_neg h0]
      have hdiv : n / 10 < fuel := by omega
      rw [ih (n / 10) (Nat.digitChar (n % 10) :: ds) hdiv, List.foldl_cons, decSeed,
        digitChar_decode (n % 10) (Nat.mod_lt n (by omega)), List.length_cons, pow_succ]
      have hsum : 10 * (n / 10) + n % 10 = n := Nat.div_add_mod n 10
      conv_rhs => rw [← hsum]
      ring

theorem natRepr_inj (i j : Nat) (h : Nat.repr i = Nat.repr j) : i = j := by
  have h2 : (Nat.toDigits 10 i).asString = (Nat.toDigits 10 j).asString := h
  have h3 : Nat.toDigits 10 i = Nat.toDigits 10 j := List.asString_inj.mp h2
  have hi := dec_toDigitsCore (i + 1) i [] (by omega)
  have hj := dec_toDigitsCore (j + 1) j [] (by omega)
  rw [show Nat.toDigits 10 i = Nat.toDigitsCore 10 (i + 1) i [] from rfl] at h3
  rw [show Nat.toDigits 10 j = Nat.toDigitsCore 10 (j + 1) j [] from rfl] at h3
  rw [h3] at hi
  rw [hi] at hj
  simpa using hj

theorem tempFileName_inj (c : String) (i j : Nat)
    (h : tempFileName c i = tempFileName c j) : i = j := by
  unfold tempFileName at h
  have h2 := congrArg String.data h
  simp only [String.data_append] at h2
  have h3 := List.append_cancel_right h2
  have h4 := List.append_cancel_left h3
  exact natRepr_inj i j (String.ext h4)

theorem pyJoin_right_inj (a b1 b2 : String)
    (hb1 : b1.data.head? ≠ some '/') (hb2 : b2.data.head? ≠ some '/')
    (h : pyJoin a b1 = pyJoin a b2) : b1 = b2 := by
  unfold pyJoin at h
  rw [if_neg hb1, if_neg hb2] at h
  by_cases hc : a = "" ∨ a.data.getLast? = some '/'
  · rw [if_pos hc, if_pos hc] at h
    have h2 := congrArg String.data h
    simp only [String.data_append] at h2
    exact String.ext (List.append_cancel_left h2)
  · rw [if_neg hc, if_neg hc] at h
    have h2 := congrArg String.data h
    simp only [String.data_append] at h2
    rw [List.append_assoc, List.append_assoc] at h2
    exact String.ext (List.append_cancel_left (List.append_cancel_left h2))

theorem batchTempFile_inj_index (t m f c : String) (i j : Nat)
    (h : batchTempFile t m f c i = batchTempFile t m f c j) : i = j := by
  unfold batchTempFile at h
  exact tempFileName_inj c i j (pyJoin_right_inj (pyJoin (pyJoin t m) f) _ _
    (tempFileName_head_ne_slash c i) (tempFileName_head_ne_slash c j) h)

theorem writeFs_at (fs : Fs) (p : String) (d : FileData) :
    writeFs fs p d p = some d := by
  unfold writeFs
  rw [if_pos (beq_self_eq_true p)]

theorem writeFs_ne (fs : Fs) (p : String) (d : FileData) (q : String) (h : q ≠ p) :
    writeFs fs p d q = fs q := by
  unfold writeFs
  rw [if_neg (fun hc => h (eq_of_beq hc))]

theorem writeFs_same (fs : Fs) (p : String) (d : FileData) (h : fs p = some d) :
    writeFs fs p d = fs := by
  funext q
  unfold writeFs
  by_cases hq : q = p
  · rw [if_pos (show (q == p) = true from by rwa [beq_iff_eq]), hq, h]
  · rw [if_neg (fun hc => hq (eq_of_beq hc))]

theorem loadCacheFile_write_self (fs : Fs) (p : String) (m : Dict) :
    loadCacheFile (writeFs fs p (FileData.good m)) p = m := by
  unfold loadCacheFile
  rw [writeFs_at]

theorem dictMem_any (d : Dict) (k : String) :
    dictMem d k = true ↔ ∃ p ∈ d, p.1 = k := by
  unfold dictMem
  rw [List.any_eq_true]
  constructor
  · rintro ⟨p, hp, he⟩
    exact ⟨p, hp, by rwa [beq_iff_eq] at he⟩
  · rintro ⟨p, hp, he⟩
    exact ⟨p, hp, by rwa [beq_iff_eq]⟩

theorem dictMem_insert_self (d : Dict) (k v : String) :
    dictMem (dictInsert d k v) k = true := by
  unfold dictInsert
  by_cases hm : dictMem d k
  · rw [if_pos hm]
    obtain ⟨p, hp, he⟩ := (dictMem_any d k).mp hm
    apply (dictMem_any _ k).mpr
    refine ⟨(k, v), ?_, rfl⟩
    apply List.mem_map.mpr
    exact ⟨p, hp, by rw [if_pos (show (p.1 == k) = true from by rwa [beq_iff_eq])]⟩
  · rw [if_neg hm]
    apply (dictMem_any _ k).mpr
    exact ⟨(k, v), List.mem_append.mpr (Or.inr (List.mem_singleton.mpr rfl)), rfl⟩

theorem dictMem_insert_of_mem (d : Dict) (k v k' : String) (h : dictMem d k' = true) :
    dictMem (dictInsert d k v) k' = true := by
  unfold dictInsert
  obtain ⟨p, hp, he⟩ := (dictMem_any d k').mp h
  by_cases hm : dictMem d k
  · rw [if_pos hm]
    apply (dictMem_any _ k').mpr
    by_cases hpk : (p.1 == k) = true
    · refine ⟨(k, v), List.mem_map.mpr ⟨p, hp, by rw [if_pos hpk]⟩, ?_⟩
      rw [beq_iff_eq] at hpk
      rw [← hpk, he]
    · refine ⟨p, List.mem_map.mpr ⟨p, hp, by rw [if_neg hpk]⟩, he⟩
  · rw [if_neg hm]
    exact (dictMem_any _ k').mpr ⟨p, List.mem_append.mpr (Or.inl hp), he⟩

theorem dictMem_foldl_insert_pairs (e : List (String × String)) :
    ∀ (acc : Dict) (k : String), dictMem acc k = true →
      dictMem (e.foldl (fun a p => dictInsert a p.1 p.2) acc) k = true := by
  induction e with
  | nil => intro acc k h; exact h
  | cons q rest ih =>
    intro acc k h
    rw [List.foldl_cons]
    exact ih (dictInsert acc q.1 q.2) k (dictMem_insert_of_mem acc q.1 q.2 k h)

theorem dictMem_update_left (d e : Dict) (k : String) (h : dictMem d k = true) :
    dictMem (dictUpdate d e) k = true :=
  dictMem_foldl_insert_pairs e d k h

theorem dictMem_update_right (d e : Dict) (k : String) (h : dictMem e k = true) :
    dictMem (dictUpdate d e) k = true := by
  unfold dictUpdate
  obtain ⟨p, hp, he⟩ := (dictMem_any e k).mp h
  clear h
  induction e generalizing d with
  | nil => exact absurd hp (List.not_mem_nil p)
  | cons q rest ih =>
    rw [List.foldl_cons]
    rcases List.mem_cons.mp hp with hq | hq
    · apply dictMem_foldl_insert_pairs
      rw [← he, hq]
      exact dictMem_insert_self d q.1 q.2
    · exact ih (dictInsert d q.1 q.2) hq

theorem identDict_mem (l : List String) (v : String) (h : v ∈ l) :
    dictMem (identDict l) (pyStrip v) = true := by
  unfold identDict
  have key : ∀ (l2 : List String) (acc : Dict), v ∈ l2 →
      dictMem (l2.foldl (fun a raw => dictInsert a (pyStrip raw) (pyStrip raw)) acc)
        (pyStrip v) = true := by
    intro l2
    induction l2 with
    | nil => intro acc hv; exact absurd hv (List.not_mem_nil v)
    | cons r rest ih =>
      intro acc hv
      rw [List.foldl_cons]
      rcases List.mem_cons.mp hv with hq | hq
      · have key2 : ∀ (l3 : List String) (a : Dict) (k : String), dictMem a k = true →
            dictMem (l3.foldl (fun a raw => dictInsert a (pyStrip raw) (pyStrip raw)) a)
              k = true := by
          intro l3
          induction l3 with
          | nil => intro a k hk; exact hk
          | cons x xs ih2 =>
            intro a k hk
            rw [List.foldl_cons]
            exact ih2 _ k (dictMem_insert_of_mem a (pyStrip x) (pyStrip x) k hk)
        apply key2
        rw [hq]
        exact dictMem_insert_self acc (pyStrip r) (pyStrip r)
      · exact ih _ hq
  exact key l [] h


theorem buildMapping_mem_mono : ∀ (items : List JVal) (acc fm : Dict) (k : String),
    buildMapping items acc = some fm → dictMem acc k = true → dictMem fm k = true := by
  intro items
  induction items with
  | nil =>
    intro acc fm k hb hk
    simp only [buildMapping, Option.some.injEq] at hb
    rw [← hb]
    exact hk
  | cons it rest ih =>
    intro acc fm k hb hk
    rcases it with _ | b | i | s | l | f
    · simp [buildMapping] at hb
    · simp [buildMapping] at hb
    · simp [buildMapping] at hb
    · simp [buildMapping] at hb
    · simp [buildMapping] at hb
    · rcases hraw : jGet f "raw_input" with _ | b | i | r | l2 | f2 <;>
        rcases hout : jGet f "output" with _ | b2 | i2 | c | l3 | f3 <;>
          simp only [buildMapping, hraw, hout] at hb <;>
            first
            | exact ih acc fm k hb hk
            | (exact absurd hb (by simp))
            | exact ih _ fm k hb (dictMem_insert_of_mem acc (pyStrip r) (pyStrip c) k hk)

theorem buildMapping_mem_item : ∀ (items : List JVal) (acc fm : Dict),
    buildMapping items acc = some fm →
    ∀ it ∈ items, ∀ f s out, it = JVal.jobj f → jGet f "raw_input" = JVal.jstr s →
      jGet f "output" = JVal.jstr out → dictMem fm (pyStrip s) = true := by
  intro items
  induction items with
  | nil =>
    intro acc fm hb it hit
    exact absurd hit (List.not_mem_nil it)
  | cons it0 rest ih =>
    intro acc fm hb it hit f s out hitf hraw hout
    rcases List.mem_cons.mp hit with he | hmem
    · rw [he] at hitf
      subst hitf
      simp only [buildMapping, hraw, hout] at hb
      exact buildMapping_mem_mono rest _ fm (pyStrip s) hb
        (dictMem_insert_self acc (pyStrip s) (pyStrip out))
    · rcases it0 with _ | b | i | s0 | l | f0
      · simp [buildMapping] at hb
      · simp [buildMapping] at hb
      · simp [buildMapping] at hb
      · simp [buildMapping] at hb
      · simp [buildMapping] at hb
      · rcases hraw0 : jGet f0 "raw_input" with _ | b | i | r | l2 | f2 <;>
          rcases hout0 : jGet f0 "output" with _ | b2 | i2 | c | l3 | f3 <;>
            simp only [buildMapping, hraw0, hout0] at hb <;>
              first
              | exact ih _ fm hb it hmem f s out hitf hraw hout
              | (exact absurd hb (by simp))

theorem mem_pendingOf_intro (batch : List String) (loaded : Dict) (v : String)
    (hv : v ∈ batch) (hm : dictMem loaded v = false) : v ∈ pendingOf batch loaded := by
  unfold pendingOf
  apply List.mem_filter.mpr
  refine ⟨hv, ?_⟩
  show (!dictMem loaded v) = true
  rw [hm]
  rfl

theorem pendingOf_eq_nil (batch : List String) (m : Dict)
    (h : ∀ v ∈ batch, dictMem m v = true) : pendingOf batch m = [] := by
  unfold pendingOf
  rw [List.filter_eq_nil_iff]
  intro v hv hc
  have hc' : (!dictMem m v) = true := hc
  rw [h v hv] at hc'
  exact absurd hc' (by decide)

theorem processBatchCore_of_covered (oracle : List String → Nat → PromptResult)
    (batch : List String) (cityFlag : Bool) (m : Dict)
    (h : pendingOf batch m = []) :
    processBatchCore oracle batch cityFlag m = ⟨CoreOutcome.early m, [], 0⟩ := by
  simp only [processBatchCore, h, List.isEmpty_nil, if_true]

theorem processBatchCore_done_covers (oracle : List String → Nat → PromptResult)
    (batch : List String) (cityFlag : Bool) (loaded : Dict)
    (Hstrip : ∀ v ∈ batch, pyStrip v = v)
    (Hecho : ∀ a, echoesExactly (pendingOf batch loaded)
      (oracle (pendingOf batch loaded) a))
    (m : Dict) (sl : List Nat) (att : Nat)
    (h : processBatchCore oracle batch cityFlag loaded = ⟨CoreOutcome.done m, sl, att⟩) :
    pendingOf batch m = [] ∨ (cityFlag = true ∧ m = loaded) := by
  by_cases hemp : (pendingOf batch loaded).isEmpty
  · simp only [processBatchCore, hemp, if_true] at h
    exact CoreOutcome.noConfusion (congrArg CoreResult.outcome h)
  · simp only [processBatchCore, hemp, if_false, Bool.false_eq_true] at h
    set P := pendingOf batch loaded with hP
    set L := attemptLoop (oracle P) P.length 3 0 none [] with hL
    by_cases huse : (L.valid &&
      (match L.response with
       | some v => jTruthy v &&
         (match v with
          | JVal.jobj f => (jLookup f "standardized_data").isSome
          | _ => false)
       | none => false)) = true
    · have h2 := huse
      rw [Bool.and_eq_true] at h2
      obtain ⟨hvalid, hmatch⟩ := h2
      obtain ⟨a, v0, hresp, hov, hvd⟩ :=
        attemptLoop_valid_response (oracle P) P.length 3 0 none [] hvalid
      rw [← hL] at hresp
      rw [hresp] at hmatch
      simp only [Bool.and_eq_true] at hmatch
      obtain ⟨htr, hshape⟩ := hmatch
      rcases v0 with _ | b | n | s | l | f
      · exact Bool.noConfusion hshape
      · exact Bool.noConfusion hshape
      · exact Bool.noConfusion hshape
      · exact Bool.noConfusion hshape
      · exact Bool.noConfusion hshape
      · have hshape2 : (jLookup f "standardized_data").isSome = true := hshape
        rcases hsd : jLookup f "standardized_data" with _ | wv
        · rw [hsd] at hshape2
          exact Bool.noConfusion hshape2
        · rcases wv with _ | b | n | s | items | f2 <;>
            simp only [hresp, hsd, hvalid, htr, Option.isSome_some, Bool.and_self,
              Bool.and_true, Bool.true_and, if_true] at h
          · exact CoreOutcome.noConfusion (congrArg CoreResult.outcome h)
          · exact CoreOutcome.noConfusion (congrArg CoreResult.outcome h)
          · exact CoreOutcome.noConfusion (congrArg CoreResult.outcome h)
          · exact CoreOutcome.noConfusion (congrArg CoreResult.outcome h)
          · rcases hbm : buildMapping items [] with _ | fm <;> simp only [hbm] at h
            · exact CoreOutcome.noConfusion (congrArg CoreResult.outcome h)
            · left
              rw [CoreResult.mk.injEq] at h
              obtain ⟨h1, -, -⟩ := h
              injection h1 with hm
              rw [← hm]
              apply pendingOf_eq_nil
              intro v1 hv1
              by_cases hmem : dictMem loaded v1 = true
              · exact dictMem_update_left loaded fm v1 hmem
              · have hmem' : dictMem loaded v1 = false := by
                  rcases Bool.eq_false_or_eq_true (dictMem loaded v1) with hx | hx
                  · exact absurd hx hmem
                  · exact hx
                have hpend : v1 ∈ P := hP ▸ mem_pendingOf_intro batch loaded v1 hv1 hmem'
                obtain ⟨kk, hkk⟩ := List.mem_iff_get.mp hpend
                have hlen : items.length = P.length := by
                  have hv2 := hvd
                  simp only [validateResponse, hsd, Bool.and_eq_true,
                    decide_eq_true_eq] at hv2
                  exact hv2.1
                have hkitems : (kk : Nat) < items.length := by
                  rw [hlen]; exact kk.isLt
                obtain ⟨f3, s3, out3, hobj, hraw3, hstrip3, hout3⟩ :=
                  Hecho a (JVal.jobj f) hov hvd f items rfl hsd (kk : Nat) hkitems kk.isLt
                have hmemitem : dictMem fm (pyStrip s3) = true :=
                  buildMapping_mem_item items [] fm hbm (items.get ⟨(kk : Nat), hkitems⟩)
                    (List.get_mem items _ _) f3 s3 out3 hobj hraw3 hout3
                have hkk' : P.get ⟨(kk : Nat), kk.isLt⟩ = v1 := hkk
                rw [hstrip3, hkk'] at hmemitem
                exact dictMem_update_right loaded fm v1 hmemitem
          · exact CoreOutcome.noConfusion (congrArg CoreResult.outcome h)
    · have hfalse : (L.valid &&
        (match L.response with
         | some v => jTruthy v &&
           (match v with
            | JVal.jobj f => (jLookup f "standardized_data").isSome
            | _ => false)
         | none => false)) = false := by
        simpa using huse
      simp only [hfalse, if_false, Bool.false_eq_true] at h
      rw [CoreResult.mk.injEq] at h
      obtain ⟨h1, -, -⟩ := h
      injection h1 with hm
      by_cases hc : cityFlag = true
      · right
        refine ⟨hc, ?_⟩
        rw [← hm]
        simp only [hc, if_true]
        rfl
      · left
        have hcf : cityFlag = false := by
          rcases Bool.eq_false_or_eq_true cityFlag with hx | hx
          · exact absurd hx hc
          · exact hx
        rw [← hm]
        simp only [hcf, Bool.false_eq_true, if_false]
        apply pendingOf_eq_nil
        intro v1 hv1
        by_cases hmem : dictMem loaded v1 = true
        · exact dictMem_update_left _ _ _ hmem
        · have hmem' : dictMem loaded v1 = false := by
            rcases Bool.eq_false_or_eq_true (dictMem loaded v1) with hx | hx
            · exact absurd hx hmem
            · exact hx
          apply dictMem_update_right
          have hpend : v1 ∈ P := hP ▸ mem_pendingOf_intro batch loaded v1 hv1 hmem'
          have hid := identDict_mem P v1 hpend
          rwa [Hstrip v1 hv1] at hid


theorem processBatch_eq (oracle : List String → Nat → PromptResult)
    (b : List String) (t m f c : String) (i : Nat) (cf : Bool) (fs : Fs) :
    processBatch oracle b t m f c i cf fs =
      match processBatchCore oracle b cf (loadCacheFile fs (batchTempFile t m f c i)) with
      | ⟨CoreOutcome.early mm, sl, att⟩ => ⟨fs, some mm, sl, att⟩
      | ⟨CoreOutcome.raised, sl, att⟩ => ⟨fs, none, sl, att⟩
      | ⟨CoreOutcome.done mm, sl, att⟩ =>
        ⟨writeFs fs (batchTempFile t m f c i) (FileData.good mm), some mm, sl, att⟩ := by
  simp only [processBatch]
  rcases processBatchCore oracle b cf (loadCacheFile fs (batchTempFile t m f c i))
    with ⟨oc, sl, att⟩
  rcases oc with mm | _ | mm <;> rfl

theorem loadCacheFile_congr (fs fs' : Fs) (p : String) (h : fs' p = fs p) :
    loadCacheFile fs' p = loadCacheFile fs p := by
  unfold loadCacheFile
  rw [h]

theorem processBatch_replay (oracle : List String → Nat → PromptResult)
    (b : List String) (t m f c : String) (i : Nat) (cf : Bool) (fs fs' : Fs)
    (Hstrip : ∀ v ∈ b, pyStrip v = v)
    (Hecho : ∀ req a, echoesExactly req (oracle req a))
    (hsame : fs' (batchTempFile t m f c i) =
      (processBatch oracle b t m f c i cf fs).fs (batchTempFile t m f c i)) :
    (processBatch oracle b t m f c i cf fs').fs = fs' ∧
    (processBatch oracle b t m f c i cf fs').result =
      (processBatch oracle b t m f c i cf fs).result := by
  rcases hcore : processBatchCore oracle b cf
      (loadCacheFile fs (batchTempFile t m f c i)) with ⟨oc, sl, att⟩
  rcases oc with m1 | _ | m1
  · -- run 1 returned the cache early: no write, replay is identical
    have hr1 : processBatch oracle b t m f c i cf fs = ⟨fs, some m1, sl, att⟩ := by
      rw [processBatch_eq, hcore]
    have hsame' : fs' (batchTempFile t m f c i) = fs (batchTempFile t m f c i) := by
      rw [hsame, hr1]
    have hload : loadCacheFile fs' (batchTempFile t m f c i) =
        loadCacheFile fs (batchTempFile t m f c i) := loadCacheFile_congr fs fs' _ hsame'
    have hr2 : processBatch oracle b t m f c i cf fs' = ⟨fs', some m1, sl, att⟩ := by
      rw [processBatch_eq, hload, hcore]
    rw [hr1, hr2]
    exact ⟨rfl, rfl⟩
  · -- run 1 raised: no write, replay is identical
    have hr1 : processBatch oracle b t m f c i cf fs = ⟨fs, none, sl, att⟩ := by
      rw [processBatch_eq, hcore]
    have hsame' : fs' (batchTempFile t m f c i) = fs (batchTempFile t m f c i) := by
      rw [hsame, hr1]
    have hload : loadCacheFile fs' (batchTempFile t m f c i) =
        loadCacheFile fs (batchTempFile t m f c i) := loadCacheFile_congr fs fs' _ hsame'
    have hr2 : processBatch oracle b t m f c i cf fs' = ⟨fs', none, sl, att⟩ := by
      rw [processBatch_eq, hload, hcore]
    rw [hr1, hr2]
    exact ⟨rfl, rfl⟩
  · -- run 1 computed and persisted m1
    have hr1 : processBatch oracle b t m f c i cf fs =
        ⟨writeFs fs (batchTempFile t m f c i) (FileData.good m1), some m1, sl, att⟩ := by
      rw [processBatch_eq, hcore]
    have hsame' : fs' (batchTempFile t m f c i) = some (FileData.good m1) := by
      rw [hsame, hr1]
      exact writeFs_at fs (batchTempFile t m f c i) (FileData.good m1)
    have hload : loadCacheFile fs' (batchTempFile t m f c i) = m1 := by
      unfold loadCacheFile
      rw [hsame']
    rcases processBatchCore_done_covers oracle b cf
        (loadCacheFile fs (batchTempFile t m f c i)) Hstrip (fun a => Hecho _ a)
        m1 sl att hcore with hcov | ⟨hcity, hsameL⟩
    · -- every batch value is now cached: the second run returns early
      have hr2 : processBatch oracle b t m f c i cf fs' = ⟨fs', some m1, [], 0⟩ := by
        rw [processBatch_eq, hload, processBatchCore_of_covered oracle b cf m1 hcov]
      rw [hr1, hr2]
      exact ⟨rfl, rfl⟩
    · -- city flag: run 1 wrote the loaded mapping back; run 2 replays identically
      have hcore2 : processBatchCore oracle b cf m1 = ⟨CoreOutcome.done m1, sl, att⟩ := by
        rw [hsameL] at hcore ⊢
        exact hcore
      have hr2 : processBatch oracle b t m f c i cf fs' =
          ⟨writeFs fs' (batchTempFile t m f c i) (FileData.good m1), some m1, sl, att⟩ := by
        rw [processBatch_eq, hload, hcore2]
      rw [hr1, hr2]
      refine ⟨?_, rfl⟩
      exact writeFs_same fs' (batchTempFile t m f c i) (FileData.good m1) hsame'

theorem runBatches_untouched (oracle : List String → Nat → PromptResult)
    (t m f c : String) (cf : Bool) :
    ∀ (batches : List (List String)) (j : Nat) (fs : Fs) (fm : Dict) (q : String),
      (∀ k, j ≤ k → q ≠ batchTempFile t m f c k) →
      (runBatches oracle t m f c cf batches j fs fm).1 q = fs q := by
  intro batches
  induction batches with
  | nil => intro j fs fm q h; rfl
  | cons b rest ih =>
    intro j fs fm q h
    show (runBatches oracle t m f c cf rest (j + 1)
      (processBatch oracle b t m f c j cf fs).fs
      (mergeBatchResult fm (processBatch oracle b t m f c j cf fs).result)).1 q = fs q
    rw [ih (j + 1) _ _ q (fun k hk => h k (by omega))]
    rw [processBatch_eq]
    rcases processBatchCore oracle b cf (loadCacheFile fs (batchTempFile t m f c j))
      with ⟨oc, sl, att⟩
    rcases oc with mm | _ | mm
    · rfl
    · rfl
    · exact writeFs_ne fs _ _ q (h j (by omega))

theorem runBatches_replay (oracle : List String → Nat → PromptResult)
    (t m f c : String) (cf : Bool)
    (Hecho : ∀ req a, echoesExactly req (oracle req a)) :
    ∀ (batches : List (List String)) (j : Nat) (fs : Fs) (fm : Dict),
      (∀ b ∈ batches, ∀ v ∈ b, pyStrip v = v) →
      runBatches oracle t m f c cf batches j
        (runBatches oracle t m f c cf batches j fs fm).1 fm =
      runBatches oracle t m f c cf batches j fs fm := by
  intro batches
  induction batches with
  | nil => intro j fs fm h; rfl
  | cons b rest ih =>
    intro j fs fm h
    show runBatches oracle t m f c cf rest (j + 1)
        (processBatch oracle b t m f c j cf
          (runBatches oracle t m f c cf rest (j + 1)
            (processBatch oracle b t m f c j cf fs).fs
            (mergeBatchResult fm (processBatch oracle b t m f c j cf fs).result)).1).fs
        (mergeBatchResult fm (processBatch oracle b t m f c j cf
          (runBatches oracle t m f c cf rest (j + 1)
            (processBatch oracle b t m f c j cf fs).fs
            (mergeBatchResult fm (processBatch oracle b t m f c j cf fs).result)).1).result) =
      runBatches oracle t m f c cf rest (j + 1)
        (processBatch oracle b t m f c j cf fs).fs
        (mergeBatchResult fm (processBatch oracle b t m f c j cf fs).result)
    have hsame : (runBatches oracle t m f c cf rest (j + 1)
        (processBatch oracle b t m f c j cf fs).fs
        (mergeBatchResult fm (processBatch oracle b t m f c j cf fs).result)).1
          (batchTempFile t m f c j) =
        (processBatch oracle b t m f c j cf fs).fs (batchTempFile t m f c j) := by
      apply runBatches_untouched
      intro k hk hq
      have := batchTempFile_inj_index t m f c j k hq
      omega
    obtain ⟨hfs2, hres2⟩ := processBatch_replay oracle b t m f c j cf fs _
      (fun v hv => h b (List.mem_cons_self b rest) v hv) Hecho hsame
    rw [hfs2, hres2]
    exact ih (j + 1) (processBatch oracle b t m f c j cf fs).fs
      (mergeBatchResult fm (processBatch oracle b t m f c j cf fs).result)
      (fun b2 hb2 v hv => h b2 (List.mem_cons_of_mem b hb2) v hv)

theorem uniqueGo_subset : ∀ (l seen : List String) (x : String),
    x ∈ uniqueGo l seen → x ∈ l := by
  intro l
  induction l with
  | nil => intro seen x hx; exact absurd hx (List.not_mem_nil x)
  | cons a t ih =>
    intro seen x hx
    by_cases hc : seen.contains a = true
    · rw [show uniqueGo (a :: t) seen =
          (if seen.contains a = true then uniqueGo t seen
           else a :: uniqueGo t (a :: seen)) from rfl, if_pos hc] at hx
      exact List.mem_cons_of_mem a (ih seen x hx)
    · rw [show uniqueGo (a :: t) seen =
          (if seen.contains a = true then uniqueGo t seen
           else a :: uniqueGo t (a :: seen)) from rfl, if_neg hc] at hx
      rcases List.mem_cons.mp hx with he | hmx
      · rw [he]; exact List.mem_cons_self a t
      · exact List.mem_cons_of_mem a (ih (a :: seen) x hmx)

theorem listUnique_subset (l : List String) (x : String) (h : x ∈ listUnique l) : x ∈ l :=
  uniqueGo_subset l [] x h


/-- C5: with the same deterministic remote responses, a second run of the
per-column engine on the same rows leaves the persisted cache exactly as
the first run left it and returns the same output column and mapping -
provided every structurally valid response echoes the requested values
exactly (item `k` echoes the `k`-th requested value after stripping) and
the pre-cleaned row values are stripped strings.  Without the echo
proviso the claim is false (see the counterexample): validation never
checks linkage, so a first-run response can leave a requested value
uncached and the second run re-asks for it. -/
theorem spec_C5 (oracle : List String → Nat → PromptResult)
    (abbrevs : List (String × String)) (unwanted : List String)
    (t m f c : String) (chunkSize : Nat) (cf : Bool)
    (rows : List (Option String)) (fs0 : Fs)
    (Hecho : ∀ req a, echoesExactly req (oracle req a))
    (Hstrip : ∀ r ∈ rows, pyStrip (localCleanName abbrevs unwanted r) =
      localCleanName abbrevs unwanted r) :
    standardizeColumn oracle abbrevs unwanted t m f c chunkSize cf rows
        (standardizeColumn oracle abbrevs unwanted t m f c chunkSize cf rows fs0).fs =
      standardizeColumn oracle abbrevs unwanted t m f c chunkSize cf rows fs0 := by
  by_cases hemp : ((listUnique (rows.map (localCleanName abbrevs unwanted))).filter
      (fun u => u ≠ "")).isEmpty = true
  · simp only [standardizeColumn, hemp, if_true]
  · have hBatches : ∀ b ∈ chunksOf chunkSize
        ((listUnique (rows.map (localCleanName abbrevs unwanted))).filter
          (fun u => u ≠ "")), ∀ v ∈ b, pyStrip v = v := by
      intro b hb v hv
      have hvu : v ∈ (listUnique (rows.map (localCleanName abbrevs unwanted))).filter
          (fun u => u ≠ "") := by
        unfold chunksOf at hb
        rcases List.mem_map.mp hb with ⟨idx, hidx, hbe⟩
        rw [← hbe] at hv
        exact List.mem_of_mem_drop (List.mem_of_mem_take hv)
      have hvl : v ∈ listUnique (rows.map (localCleanName abbrevs unwanted)) :=
        (List.mem_filter.mp hvu).1
      rcases List.mem_map.mp (listUnique_subset _ v hvl) with ⟨r, hr, hre⟩
      rw [← hre]
      exact Hstrip r hr
    have hrb := runBatches_replay oracle t m f c cf Hecho
      (chunksOf chunkSize ((listUnique (rows.map (localCleanName abbrevs unwanted))).filter
        (fun u => u ≠ ""))) 0 fs0 [] hBatches
    have hfs1 : (standardizeColumn oracle abbrevs unwanted t m f c chunkSize cf rows fs0).fs =
        (runBatches oracle t m f c cf (chunksOf chunkSize
          ((listUnique (rows.map (localCleanName abbrevs unwanted))).filter
            (fun u => u ≠ ""))) 0 fs0 []).1 := by
      simp only [standardizeColumn]
      rw [if_neg hemp]
    rw [hfs1]
    simp only [standardizeColumn]
    rw [if_neg hemp, if_neg hemp]
    rw [hrb]

/-- Counterexample to C5 as stated: the service responds validly but
echoes `"C"` instead of the requested `"B"`.  The first run caches
`A -> X, C -> Y` and outputs `[X, B]` (`B` unmapped falls back); the
second run still finds `B` uncached, re-asks for `["B"]` alone, receives
`B -> Z`, and outputs `[X, Z]` with a different cache file. -/
theorem spec_C5_counterexample :
    (standardizeColumn
        (fun req _ =>
          if req = ["A", "B"] then
            PromptResult.val (JVal.jobj [("standardized_data", JVal.jarr
              [JVal.jobj [("raw_input", JVal.jstr "A"), ("output", JVal.jstr "X")],
               JVal.jobj [("raw_input", JVal.jstr "C"), ("output", JVal.jstr "Y")]])])
          else if req = ["B"] then
            PromptResult.val (JVal.jobj [("standardized_data", JVal.jarr
              [JVal.jobj [("raw_input", JVal.jstr "B"), ("output", JVal.jstr "Z")]])])
          else PromptResult.exn)
        [] [] "t" "m" "f" "col" 10 false [some "A", some "B"] emptyFs).output =
      some [some "X", some "B"] ∧
    (standardizeColumn
        (fun req _ =>
          if req = ["A", "B"] then
            PromptResult.val (JVal.jobj [("standardized_data", JVal.jarr
              [JVal.jobj [("raw_input", JVal.jstr "A"), ("output", JVal.jstr "X")],
               JVal.jobj [("raw_input", JVal.jstr "C"), ("output", JVal.jstr "Y")]])])
          else if req = ["B"] then
            PromptResult.val (JVal.jobj [("standardized_data", JVal.jarr
              [JVal.jobj [("raw_input", JVal.jstr "B"), ("output", JVal.jstr "Z")]])])
          else PromptResult.exn)
        [] [] "t" "m" "f" "col" 10 false [some "A", some "B"]
        (standardizeColumn
          (fun req _ =>
            if req = ["A", "B"] then
              PromptResult.val (JVal.jobj [("standardized_data", JVal.jarr
                [JVal.jobj [("raw_input", JVal.jstr "A"), ("output", JVal.jstr "X")],
                 JVal.jobj [("raw_input", JVal.jstr "C"), ("output", JVal.jstr "Y")]])])
            else if req = ["B"] then
              PromptResult.val (JVal.jobj [("standardized_data", JVal.jarr
                [JVal.jobj [("raw_input", JVal.jstr "B"), ("output", JVal.jstr "Z")]])])
            else PromptResult.exn)
          [] [] "t" "m" "f" "col" 10 false [some "A", some "B"] emptyFs).fs).output =
      some [some "X", some "Z"] ∧
    loadCacheFile
      (standardizeColumn
        (fun req _ =>
          if req = ["A", "B"] then
            PromptResult.val (JVal.jobj [("standardized_data", JVal.jarr
              [JVal.jobj [("raw_input", JVal.jstr "A"), ("output", JVal.jstr "X")],
               JVal.jobj [("raw_input", JVal.jstr "C"), ("output", JVal.jstr "Y")]])])
          else if req = ["B"] then
            PromptResult.val (JVal.jobj [("standardized_data", JVal.jarr
              [JVal.jobj [("raw_input", JVal.jstr "B"), ("output", JVal.jstr "Z")]])])
          else PromptResult.exn)
        [] [] "t" "m" "f" "col" 10 false [some "A", some "B"] emptyFs).fs
      (batchTempFile "t" "m" "f" "col" 0) = [("A", "X"), ("C", "Y")] ∧
    loadCacheFile
      (standardizeColumn
        (fun req _ =>
          if req = ["A", "B"] then
            PromptResult.val (JVal.jobj [("standardized_data", JVal.jarr
              [JVal.jobj [("raw_input", JVal.jstr "A"), ("output", JVal.jstr "X")],
               JVal.jobj [("raw_input", JVal.jstr "C"), ("output", JVal.jstr "Y")]])])
          else if req = ["B"] then
            PromptResult.val (JVal.jobj [("standardized_data", JVal.jarr
              [JVal.jobj [("raw_input", JVal.jstr "B"), ("output", JVal.jstr "Z")]])])
          else PromptResult.exn)
        [] [] "t" "m" "f" "col" 10 false [some "A", some "B"]
        (standardizeColumn
          (fun req _ =>
            if req = ["A", "B"] then
              PromptResult.val (JVal.jobj [("standardized_data", JVal.jarr
                [JVal.jobj [("raw_input", JVal.jstr "A"), ("output", JVal.jstr "X")],
                 JVal.jobj [("raw_input", JVal.jstr "C"), ("output", JVal.jstr "Y")]])])
            else if req = ["B"] then
              PromptResult.val (JVal.jobj [("standardized_data", JVal.jarr
                [JVal.jobj [("raw_input", JVal.jstr "B"), ("output", JVal.jstr "Z")]])])
            else PromptResult.exn)
          [] [] "t" "m" "f" "col" 10 false [some "A", some "B"] emptyFs).fs).fs
      (batchTempFile "t" "m" "f" "col" 0) = [("A", "X"), ("C", "Y"), ("B", "Z")] := by
  refine ⟨?_, ?_, ?_, ?_⟩ <;> decide

/-- Witness for C5 at a concrete run: one row `"A"` and a service that
always fails, so both runs fall back to the identity mapping. -/
theorem spec_C5_witness :
    (∀ r ∈ [some "A"], pyStrip (localCleanName [] [] r) = localCleanName [] [] r) ∧
    standardizeColumn (fun _ _ => PromptResult.exn) [] [] "t" "m" "f" "col" 1 false
        [some "A"]
        (standardizeColumn (fun _ _ => PromptResult.exn) [] [] "t" "m" "f" "col" 1 false
          [some "A"] emptyFs).fs =
      standardizeColumn (fun _ _ => PromptResult.exn) [] [] "t" "m" "f" "col" 1 false
        [some "A"] emptyFs :=
  ⟨by decide,
   spec_C5 (fun _ _ => PromptResult.exn) [] [] "t" "m" "f" "col" 1 false [some "A"] emptyFs
     (fun _ _ _ hv => Option.noConfusion hv) (by decide)⟩

end ImportInfoRefiner
